import Mathlib

/-!
Verification of the Rubik-solver repository (`utilities.py`, `Kube.py`).

The Python code represents a Rubik's-cube move by four block permutation
matrices acting on a flattened state vector:

  * `A8`  : an 8x8 permutation matrix for the corner cubies,
  * `S3`  : a 24x24 block-diagonal-like matrix whose 3x3 block in row-block
            `i` sits in column-block `A8(i)` and is a cyclic permutation of
            the 3 corner orientations,
  * `A12` : a 12x12 permutation matrix for the edge cubies,
  * `S2`  : a 24x24 matrix of 2x2 cyclic blocks for the edge orientations.

A permutation matrix `M` is encoded here by the function `p` with
`(M·v)[i] = v[p i]` (the column of the 1 in row `i`).  Under this encoding a
matrix product `M₁·M₂` corresponds to `p₂ ∘ p₁`, i.e. to `p₁.trans p₂` on
`Equiv`s, and the matrix inverse of a permutation matrix corresponds to
`Equiv.symm`.  Every cyclic orientation block is a power of the 3-cycle
`(T(3,0,2)·T(3,0,1))` (resp. of `T(2,0,1)`), hence is determined by its shift
`δ ∈ ZMod 3` (resp. `ZMod 2`); the block product law of the `S3`/`S2`
matrices is `δ''_i = δ_i + δ'_{p(i)}`, which is the composition law used
below.  All moves constructed by the program have this shape, so the
encoding is faithful on everything the program builds.
-/

set_option maxRecDepth 100000

namespace Rubik

/-- The six faces of the cube; tokens in the Python code are the characters
`F R U B L D` (clockwise quarter turn) and `f r u b l d` (counter-clockwise). -/
inductive Face where
  | F | R | U | B | L | D
deriving DecidableEq, Repr

/-- A move token: a face together with its case (`up = true` is the
uppercase/clockwise character). -/
structure Tok where
  face : Face
  up : Bool
deriving DecidableEq, Repr

/-- Python `A.upper()`/`A.lower()` case swap on a token. -/
def Tok.swapCase (t : Tok) : Tok := ⟨t.face, !t.up⟩

/-- The `move` class of `utilities.py`: corner permutation, corner twist
shifts, edge permutation, edge twist shifts, and the decomposition into
fundamental tokens (`self.decompo`). -/
structure move where
  A8 : Equiv.Perm (Fin 8)
  S3 : Fin 8 → ZMod 3
  A12 : Equiv.Perm (Fin 12)
  S2 : Fin 12 → ZMod 2
  decompo : List Tok

theorem move.ext' {a b : move} (h8 : a.A8 = b.A8) (h3 : a.S3 = b.S3)
    (h12 : a.A12 = b.A12) (h2 : a.S2 = b.S2) (hd : a.decompo = b.decompo) :
    a = b := by
  cases a; cases b; simp_all

/-- `move(seq = [])`: the identity move. -/
def move.one : move :=
  ⟨Equiv.refl _, fun _ => 0, Equiv.refl _, fun _ => 0, []⟩

/-- `T(8,p0,p3)*T(8,p0,p2)*T(8,p0,p1)` from the `P8` constructor branch:
the product of the three transposition matrices, as a permutation. -/
def mkA8 (p : Fin 4 → Fin 8) : Equiv.Perm (Fin 8) :=
  (Equiv.swap (p 0) (p 3)).trans ((Equiv.swap (p 0) (p 2)).trans (Equiv.swap (p 0) (p 1)))

/-- The corner-orientation shifts from the `P3` constructor branch:
`s3[p8[i]] = (T(3,0,2)*T(3,0,1))**p3[i]`, and the 3x3 block
`(T(3,0,2)*T(3,0,1))**k` is the cyclic shift by `2*k` (mod 3).  The Python
loop assigns in order `i = 0..3`, later assignments overwriting earlier
ones, which the fold reproduces. -/
def mkS3 (p8 : Fin 4 → Fin 8) (p3 : Fin 4 → ℕ) : Fin 8 → ZMod 3 :=
  fun j => (List.finRange 4).foldl (fun acc i => if j = p8 i then (2 * p3 i : ZMod 3) else acc) 0

/-- `T(12,p0,p3)*T(12,p0,p2)*T(12,p0,p1)` from the `P12` constructor branch. -/
def mkA12 (p : Fin 4 → Fin 12) : Equiv.Perm (Fin 12) :=
  (Equiv.swap (p 0) (p 3)).trans ((Equiv.swap (p 0) (p 2)).trans (Equiv.swap (p 0) (p 1)))

/-- The edge-orientation shifts from the `P2` constructor branch:
`s2[p12[i]] = T(2,0,1)**p2[i]`, the 2x2 cyclic shift by `p2[i]` (mod 2). -/
def mkS2 (p12 : Fin 4 → Fin 12) (p2 : Fin 4 → ℕ) : Fin 12 → ZMod 2 :=
  fun j => (List.finRange 4).foldl (fun acc i => if j = p12 i then (p2 i : ZMod 2) else acc) 0

/-- `move(P8 = …, P3 = …, P12 = …, P2 = …, seq = …)`. -/
def mkMove (p8 : Fin 4 → Fin 8) (p3 : Fin 4 → ℕ) (p12 : Fin 4 → Fin 12)
    (p2 : Fin 4 → ℕ) (seq : List Tok) : move :=
  ⟨mkA8 p8, mkS3 p8 p3, mkA12 p12, mkS2 p12 p2, seq⟩

/-- `move.__mul__`: block-wise matrix product.  `A8_self·A8_other`
corresponds to `self.A8.trans other.A8`; the twist blocks multiply by the
cocycle law; `seq` of the product is `other.decompo + self.decompo`. -/
def move.mul (a b : move) : move :=
  ⟨a.A8.trans b.A8, fun i => a.S3 i + b.S3 (a.A8 i),
   a.A12.trans b.A12, fun i => a.S2 i + b.S2 (a.A12 i),
   b.decompo ++ a.decompo⟩

/-- `move.__pow__(-1)`: the numpy inverse of each permutation matrix is its
transpose, i.e. the inverse permutation; the inverse of the block twist
matrix relocates and negates the shifts; `seq` is reversed with each token
case-swapped. -/
def move.inv (a : move) : move :=
  ⟨a.A8.symm, fun j => -a.S3 (a.A8.symm j),
   a.A12.symm, fun j => -a.S2 (a.A12.symm j),
   (a.decompo.reverse).map Tok.swapCase⟩

/-- `move.__pow__(n)` for `n ≥ 1`: the numpy matrix power `M**n` is the
`n`-fold matrix product, which block-wise is the `n`-fold `move.mul`;
`seq` accordingly becomes `n` copies of `decompo`. -/
def move.npow (a : move) : ℕ → move
  | 0 => move.one
  | n + 1 => (move.npow a n).mul a

/-- `move.__pow__`: `0 → move(seq=[])`, `-1 → inverse`, `n ≥ 1 → M**n`,
anything below `-1` raises `ValueError`. -/
def move.pow (a : move) (expo : ℤ) : Except String move :=
  if expo > -2 then
    if expo = 0 then .ok move.one
    else if expo = -1 then .ok a.inv
    else .ok (a.npow expo.toNat)
  else .error "expo has to be an integer greater or equal to -1"

/-- `conjugate(A, G) = G*A*G**(-1)`. -/
def conjugate (A G : move) : move := (G.mul A).mul G.inv

/-- `commutator(A, B) = B**(-1)*A**(-1)*B*A`. -/
def commutator (A B : move) : move := ((B.inv.mul A.inv).mul B).mul A

/-! The twelve fundamental moves of `Kube.py`. -/

def F : move := mkMove ![0,2,6,4] ![1,2,1,2] ![4,1,6,9] ![1,1,1,1] [⟨.F, true⟩]
def f : move := F.inv
def R : move := mkMove ![4,6,7,5] ![1,2,1,2] ![8,9,11,10] ![0,0,0,0] [⟨.R, true⟩]
def r : move := R.inv
def U : move := mkMove ![6,2,3,7] ![0,0,0,0] ![6,3,7,11] ![0,0,0,0] [⟨.U, true⟩]
def u : move := U.inv
def B : move := mkMove ![1,5,7,3] ![2,1,2,1] ![7,2,5,10] ![1,1,1,1] [⟨.B, true⟩]
def b : move := B.inv
def L : move := mkMove ![0,1,3,2] ![2,1,2,1] ![0,2,3,1] ![0,0,0,0] [⟨.L, true⟩]
def l : move := L.inv
def D : move := mkMove ![0,4,5,1] ![0,0,0,0] ![0,4,8,5] ![0,0,0,0] [⟨.D, true⟩]
def d : move := D.inv

/-- The dictionary `fund` of `Kube.py`, as a function on tokens. -/
def fund : Tok → move := fun t =>
  match t.face, t.up with
  | .F, true => F | .F, false => f
  | .R, true => R | .R, false => r
  | .U, true => U | .U, false => u
  | .B, true => B | .B, false => b
  | .L, true => L | .L, false => l
  | .D, true => D | .D, false => d

/-- The enlarged generating set `fund_l` of `Kube.py`. -/
def fund_l : List move :=
  [F, F.npow 2, f, R, R.npow 2, r, U, U.npow 2, u, B, B.npow 2, b,
   L, L.npow 2, l, D, D.npow 2, d]

/-! The special moves `M0 … M31` of `Kube.py`. -/

def M0 : move := (F.mul (commutator U L)).npow 3
def M1 : move := ((f.mul L).npow 3).mul ((F.mul l).npow 3)
def M20 : move := (((((U.npow 2).mul F).mul b).mul (L.npow 2)).mul f).mul B
def M21 : move := (((((B.npow 2).mul R).mul l).mul (U.npow 2)).mul r).mul L
def M22 : move := (((((U.npow 2).mul R).mul l).mul (F.npow 2)).mul r).mul L
def M23 : move := (((((B.npow 2).mul D).mul u).mul (R.npow 2)).mul d).mul U
def M30 : move :=
  ((((((((((((((((((l.mul R).mul F).mul l).mul R).mul D).mul l).mul R).mul B).mul B).mul
    r).mul L).mul D).mul r).mul L).mul F).mul r).mul L).mul U).mul U
def M31 : move :=
  ((((((((((((((((((b.mul F).mul D).mul b).mul F).mul R).mul b).mul F).mul U).mul U).mul
    f).mul B).mul R).mul f).mul B).mul D).mul f).mul B).mul L).mul L

/-! ### The connector search (`send_8`, `send_8_slow`, `send_12`, `send_12_slow`)

The four Python search functions are line-for-line identical except for the
success test and the default depth bound, so they are embedded as four
instances of one core.  The pruning test reads `m.decompo[0]` and
`g.decompo[-1]`; in the recursion these lists are never empty (the `prev`
list is filtered, and a caller passing a move with empty `decompo` in
`auth` would make Python raise an `IndexError` there), so the unreachable
empty case below is mapped to "no pruning". -/

/-- The pruning test of the search loops, literally:
`(m.decompo[0].upper()==m.decompo[0] and g.decompo[-1]==m.decompo[0].lower())
 or (m.decompo[0].lower()==m.decompo[0] and g.decompo[-1]==m.decompo[0].upper())
 or m.decompo[0]==g.decompo[-1]`. -/
def pruneHead (m g : move) : Bool :=
  match m.decompo.head?, g.decompo.getLast? with
  | some a, some bt =>
      (a.up && bt == Tok.mk a.face false) || (!a.up && bt == Tok.mk a.face true)
        || (a == bt)
  | _, _ => false

/-- One depth of candidate construction: `for m in fact: for g in prev:`,
appending `m*g` unconditionally at depth 1 and subject to `pruneHead`
at later depths. -/
def expand (n_combi : ℕ) (fact prev : List move) : List move :=
  fact.flatMap fun m =>
    prev.filterMap fun g =>
      if n_combi = 1 then some (m.mul g)
      else if pruneHead m g then none else some (m.mul g)

/-- The shared body of the four search functions: depth `n_combi` candidates
are built from `prev`, scanned in order for the first one satisfying `good`,
and the search recurses one depth deeper until `n_combi > maxMove`, where it
returns the `None` sentinel.  The recursion is driven by the fuel
`maxMove + 1 - n_combi`, which reaches 0 exactly when `n_combi > maxMove`
(the Python termination guard, kept as the first test of the body). -/
def searchGo (good : move → Bool) (auth : List move) (maxMove : ℕ) :
    ℕ → ℕ → List move → Option move
  | 0, _, _ => none
  | fuel + 1, n_combi, prev =>
    if n_combi > maxMove then none
    else
      let fact := if n_combi = 1 then move.one :: auth else auth
      let cur := expand n_combi fact prev
      match cur.find? good with
      | some m => some m
      | none => searchGo good auth maxMove fuel (n_combi + 1)
          (cur.filter fun m => !m.decompo.isEmpty)

def searchMoves (good : move → Bool) (auth : List move) (maxMove n_combi : ℕ)
    (prev : List move) : Option move :=
  searchGo good auth maxMove (maxMove + 1 - n_combi) n_combi prev

/-- Success test of `send_8`: `(y[cl1]==cb1 and y[cl2]==cb2) or
(y[cl1]==cb2 and y[cl2]==cb1)` where `y = m.A8*[0..7]`. -/
def good8 (cb1 cb2 cl1 cl2 : Fin 8) (m : move) : Bool :=
  (m.A8 cl1 == cb1 && m.A8 cl2 == cb2) || (m.A8 cl1 == cb2 && m.A8 cl2 == cb1)

/-- Success test of `send_8_slow`: exact placement. -/
def good8slow (cb1 cb2 cl1 cl2 : Fin 8) (m : move) : Bool :=
  m.A8 cl1 == cb1 && m.A8 cl2 == cb2

/-- Success test of `send_12`: exact placement of the first two labels and
mere membership of the third label among the slots after `cl1`. -/
def good12 (cb1 cb2 cb3 cl1 cl2 : Fin 12) (m : move) : Bool :=
  m.A12 cl1 == cb1 && m.A12 cl2 == cb2
    && (List.finRange 12).any fun k => decide (cl1 < k) && m.A12 k == cb3

/-- Success test of `send_12_slow`: exact placement of the two labels. -/
def good12slow (cb1 cb2 cl1 cl2 : Fin 12) (m : move) : Bool :=
  m.A12 cl1 == cb1 && m.A12 cl2 == cb2

/-- `send_8(cb1, cb2, cl1, cl2, auth, maxMove = 5, n_combi = 1, prev = [id])`. -/
def send_8 (cb1 cb2 cl1 cl2 : Fin 8) (auth : List move) (maxMove : ℕ := 5)
    (n_combi : ℕ := 1) (prev : List move := [move.one]) : Option move :=
  searchMoves (good8 cb1 cb2 cl1 cl2) auth maxMove n_combi prev

/-- `send_8_slow(cb1, cb2, cl1, cl2, auth, maxMove = 5, …)`. -/
def send_8_slow (cb1 cb2 cl1 cl2 : Fin 8) (auth : List move) (maxMove : ℕ := 5)
    (n_combi : ℕ := 1) (prev : List move := [move.one]) : Option move :=
  searchMoves (good8slow cb1 cb2 cl1 cl2) auth maxMove n_combi prev

/-- `send_12(cb1, cb2, cb3, cl1, cl2, auth, maxMove = 3, …)`. -/
def send_12 (cb1 cb2 cb3 cl1 cl2 : Fin 12) (auth : List move) (maxMove : ℕ := 3)
    (n_combi : ℕ := 1) (prev : List move := [move.one]) : Option move :=
  searchMoves (good12 cb1 cb2 cb3 cl1 cl2) auth maxMove n_combi prev

/-- `send_12_slow(cb1, cb2, cl1, cl2, auth, maxMove = 3, …)`. -/
def send_12_slow (cb1 cb2 cl1 cl2 : Fin 12) (auth : List move) (maxMove : ℕ := 3)
    (n_combi : ℕ := 1) (prev : List move := [move.one]) : Option move :=
  searchMoves (good12slow cb1 cb2 cl1 cl2) auth maxMove n_combi prev

/-! ### The reduction pipeline (`solve_corner_pos`, `pivot_corner_cubies`,
`solve_edge_pos`, `pivot_edge_cubies`, `solve`)

The pipeline state slices of the 68-entry state vector are: the corner
position entries `Y[:8]` (a permutation, kept as an `Equiv.Perm (Fin 8)`),
the corner orientation entries `Y[20:44]` whose cyclic triples are
determined by their first entries `Y[20+3i]` (a `Fin 8 → ZMod 3`), and
similarly for the edges.  Applying a move matrix `M` to the vector maps the
position slice `y` to `fun k => y (m.A8 k)` and the orientation slice `γ`
to `fun k => γ (m.A8 k) + m.S3 k`; the loops below read exactly the entries
`y[i]`, `y[3*i]`, `y[2*i]` that the Python code reads.  A Python exception
(the `IndexError` of `[...][0]` on an empty match list, or the `TypeError`
of `conjugate(switcher, None)`) is modelled as an `Except.error`. -/

/-- The loop of `solve_corner_pos`, with `fuel` the number of remaining
slots and `i` the current slot. -/
def solve_corner_posGo (switcher : move) (c1 c2 : Fin 8) (auth : List move) :
    ℕ → ℕ → Equiv.Perm (Fin 8) → move → Except String move
  | 0, _, _, res => .ok res
  | fuel + 1, i, y, res =>
    if h : i < 8 then
      let fi : Fin 8 := ⟨i, h⟩
      if y fi = fi then solve_corner_posGo switcher c1 c2 auth fuel (i + 1) y res
      else
        match (List.finRange 8).find? (fun k => decide (fi < k) && (y k == fi)) with
        | none => .error "IndexError"
        | some j =>
          match send_8 c1 c2 fi j auth with
          | none => .error "TypeError"
          | some G =>
            let next := conjugate switcher G
            solve_corner_posGo switcher c1 c2 auth fuel (i + 1)
              (next.A8.trans y) (next.mul res)
    else .ok res

/-- `solve_corner_pos(Y, switcher, c1, c2, auth)`. -/
def solve_corner_pos (y : Equiv.Perm (Fin 8)) (switcher : move) (c1 c2 : Fin 8)
    (auth : List move) : Except String move :=
  solve_corner_posGo switcher c1 c2 auth 8 0 y move.one

/-- The loop of `pivot_corner_cubies` over slots `1..7`. -/
def pivot_corner_cubiesGo (flipper : move) (c2 : Fin 8) (auth : List move) :
    ℕ → ℕ → (Fin 8 → ZMod 3) → move → Except String move
  | 0, _, _, res => .ok res
  | fuel + 1, i, y, res =>
    if h : i < 8 then
      let fi : Fin 8 := ⟨i, h⟩
      if y fi = 2 then
        match send_8_slow 0 c2 0 fi auth with
        | none => .error "TypeError"
        | some G =>
          let next := conjugate flipper G
          pivot_corner_cubiesGo flipper c2 auth fuel (i + 1)
            (fun k => y (next.A8 k) + next.S3 k) (next.mul res)
      else if y fi = 1 then
        match send_8_slow 0 c2 0 fi auth with
        | none => .error "TypeError"
        | some G =>
          let next := (conjugate flipper G).npow 2
          pivot_corner_cubiesGo flipper c2 auth fuel (i + 1)
            (fun k => y (next.A8 k) + next.S3 k) (next.mul res)
      else pivot_corner_cubiesGo flipper c2 auth fuel (i + 1) y res
    else .ok res

/-- `pivot_corner_cubies(Y, flipper, c2, auth)`: the loop starts at slot 1. -/
def pivot_corner_cubies (y : Fin 8 → ZMod 3) (flipper : move) (c2 : Fin 8)
    (auth : List move) : Except String move :=
  pivot_corner_cubiesGo flipper c2 auth 7 1 y move.one

/-- The inner switcher loop of `solve_edge_pos`: try each switcher in order,
return the conjugated move for the first whose `send_12` succeeds. -/
def firstSwitcher (auth : List move) (fi j : Fin 12) :
    List (move × (Fin 12 × Fin 12 × Fin 12)) → Option move
  | [] => none
  | (S, c) :: rest =>
    match send_12 c.1 c.2.1 c.2.2 fi j auth with
    | some G => some (conjugate S G)
    | none => firstSwitcher auth fi j rest

/-- The loop of `solve_edge_pos` over slots `0..9`.  The `nm` argument holds
the Python variable `next_move`: it is `none` until the first assignment,
and — faithfully to the Python scoping bug — when no switcher succeeds for
a later defect the stale value from the previous defect is reused; only
when `next_move` was never assigned does Python raise a `NameError`. -/
def solve_edge_posGo (switcher_l : List move)
    (c_l : List (Fin 12 × Fin 12 × Fin 12)) (auth : List move) :
    ℕ → ℕ → Equiv.Perm (Fin 12) → move → Option move → Except String move
  | 0, _, _, res, _ => .ok res
  | fuel + 1, i, y, res, nm =>
    if h : i < 10 then
      let fi : Fin 12 := ⟨i, by omega⟩
      if y fi = fi then solve_edge_posGo switcher_l c_l auth fuel (i + 1) y res nm
      else
        match (List.finRange 12).find? (fun k => decide (fi < k) && (y k == fi)) with
        | none => .error "IndexError"
        | some j =>
          match firstSwitcher auth fi j (switcher_l.zip c_l) with
          | some next =>
            solve_edge_posGo switcher_l c_l auth fuel (i + 1)
              (next.A12.trans y) (next.mul res) (some next)
          | none =>
            match nm with
            | some next =>
              solve_edge_posGo switcher_l c_l auth fuel (i + 1)
                (next.A12.trans y) (next.mul res) (some next)
            | none => .error "NameError"
    else .ok res

/-- `solve_edge_pos(Y, switcher_l, c_l, auth)`. -/
def solve_edge_pos (y : Equiv.Perm (Fin 12)) (switcher_l : List move)
    (c_l : List (Fin 12 × Fin 12 × Fin 12)) (auth : List move) :
    Except String move :=
  solve_edge_posGo switcher_l c_l auth 10 0 y move.one none

/-- The loop of `pivot_edge_cubies` over slots `1..11`. -/
def pivot_edge_cubiesGo (flipper : move) (c2 : Fin 12) (auth : List move) :
    ℕ → ℕ → (Fin 12 → ZMod 2) → move → Except String move
  | 0, _, _, res => .ok res
  | fuel + 1, i, y, res =>
    if h : i < 12 then
      let fi : Fin 12 := ⟨i, h⟩
      if y fi ≠ 0 then
        match send_12_slow 0 c2 0 fi auth with
        | none => .error "TypeError"
        | some G =>
          let next := conjugate flipper G
          pivot_edge_cubiesGo flipper c2 auth fuel (i + 1)
            (fun k => y (next.A12 k) + next.S2 k) (next.mul res)
      else pivot_edge_cubiesGo flipper c2 auth fuel (i + 1) y res
    else .ok res

/-- `pivot_edge_cubies(Y, flipper, c2, auth)`: the loop starts at slot 1. -/
def pivot_edge_cubies (y : Fin 12 → ZMod 2) (flipper : move) (c2 : Fin 12)
    (auth : List move) : Except String move :=
  pivot_edge_cubiesGo flipper c2 auth 11 1 y move.one

/-- The cube state: the four informative slices of the 68-entry state
vector of the Python code (see the section comment above). -/
structure CubeState where
  cp : Equiv.Perm (Fin 8)
  co : Fin 8 → ZMod 3
  ep : Equiv.Perm (Fin 12)
  eo : Fin 12 → ZMod 2

/-- Application of a move matrix to the state vector (`Y = m.M*Y`). -/
def applyMove (m : move) (st : CubeState) : CubeState :=
  ⟨m.A8.trans st.cp, fun k => st.co (m.A8 k) + m.S3 k,
   m.A12.trans st.ep, fun k => st.eo (m.A12 k) + m.S2 k⟩

/-- `move_list_to_state(actions)`: fold the fundamental moves over the
token list (`M = fund[a]*M`) and apply the resulting matrix to the solved
state vector. -/
def move_list_to_state (actions : List Tok) : CubeState :=
  let M := actions.foldl (fun M a => (fund a).mul M) move.one
  ⟨M.A8, M.S3, M.A12, M.S2⟩

/-- The solved configuration: identity permutations, zero orientations. -/
def solvedState : CubeState :=
  ⟨Equiv.refl _, fun _ => 0, Equiv.refl _, fun _ => 0⟩

/-- The switcher list and zone list passed by `solve` to the edge-position
phase. -/
def switchers3 : List move := [M20, M21, M22, M23]

def zones3 : List (Fin 12 × Fin 12 × Fin 12) :=
  [(0, 3, 11), (5, 6, 7), (4, 6, 7), (2, 9, 10)]

/-- `solve(state)`: the four-phase pipeline of `Kube.py`. -/
def solve (st : CubeState) : Except String (List Tok) := do
  let res1 ← solve_corner_pos st.cp M0 1 3 fund_l
  let st1 := applyMove res1 st
  let res2 ← pivot_corner_cubies st1.co M1 2 fund_l
  let st2 := applyMove res2 st1
  let res3 ← solve_edge_pos st2.ep switchers3 zones3 fund_l
  let st3 := applyMove res3 st2
  let res4 ← pivot_edge_cubies st3.eo M31 3 fund_l
  .ok (((res4.mul res3).mul res2).mul res1).decompo

/-- The accumulated move of `move_list_to_state`: `M = fund[a]*M` folded
over the token list starting from the identity. -/
def repl (actions : List Tok) : move :=
  actions.foldl (fun M a => (fund a).mul M) move.one

/-- Reading the four state slices off a move matrix applied to the solved
state vector. -/
def moveToState (M : move) : CubeState :=
  ⟨M.A8, M.S3, M.A12, M.S2⟩

theorem move_list_to_state_eq (l : List Tok) :
    move_list_to_state l = moveToState (repl l) := rfl

/-! ### Algebra lemmas for `move` -/

theorem move.mul_one (a : move) : a.mul move.one = a := by
  refine move.ext' ?_ ?_ ?_ ?_ ?_
  · exact Equiv.trans_refl a.A8
  · funext i; simp [move.mul, move.one]
  · exact Equiv.trans_refl a.A12
  · funext i; simp [move.mul, move.one]
  · rfl

theorem move.one_mul (a : move) : move.one.mul a = a := by
  refine move.ext' ?_ ?_ ?_ ?_ ?_
  · exact Equiv.refl_trans a.A8
  · funext i; simp [move.mul, move.one]
  · exact Equiv.refl_trans a.A12
  · funext i; simp [move.mul, move.one]
  · simp [move.mul, move.one]

theorem move.mul_assoc (a b c : move) :
    (a.mul b).mul c = a.mul (b.mul c) := by
  refine move.ext' ?_ ?_ ?_ ?_ ?_
  · rfl
  · funext i; simp [move.mul, add_assoc]
  · rfl
  · funext i; simp [move.mul, add_assoc]
  · simp [move.mul]

theorem move.one_inv : move.one.inv = move.one := by
  refine move.ext' ?_ ?_ ?_ ?_ ?_ <;> simp [move.inv, move.one]

theorem move.inv_inv (a : move) : a.inv.inv = a := by
  refine move.ext' ?_ ?_ ?_ ?_ ?_
  · simp [move.inv]
  · funext i; simp [move.inv]
  · simp [move.inv]
  · funext i; simp [move.inv]
  · simp [move.inv, Function.comp, Tok.swapCase, List.map_reverse, List.map_map]
    have : (Tok.swapCase ∘ Tok.swapCase) = id := by
      funext t; simp [Tok.swapCase]
    simp [← List.map_reverse, List.map_map, this]

theorem move.mul_inv_rev (a bm : move) :
    (a.mul bm).inv = bm.inv.mul a.inv := by
  refine move.ext' ?_ ?_ ?_ ?_ ?_
  · ext x; simp [move.mul, move.inv]
  · funext j
    simp [move.mul, move.inv, neg_add, add_comm]
  · ext x; simp [move.mul, move.inv]
  · funext j
    simp [move.mul, move.inv, neg_add, add_comm]
  · simp [move.mul, move.inv]

/-- The four fields of `m * m**(-1)` are the identity (used by C8). -/
theorem move.mul_inv_fields (a : move) :
    (a.mul a.inv).A8 = Equiv.refl _ ∧ (a.mul a.inv).S3 = (fun _ => 0) ∧
    (a.mul a.inv).A12 = Equiv.refl _ ∧ (a.mul a.inv).S2 = (fun _ => 0) := by
  refine ⟨?_, ?_, ?_, ?_⟩
  · simp [move.mul, move.inv]
  · funext i; simp [move.mul, move.inv]
  · simp [move.mul, move.inv]
  · funext i; simp [move.mul, move.inv]

theorem fund_decompo (t : Tok) : (fund t).decompo = [t] := by
  obtain ⟨fc, up⟩ := t
  cases fc <;> cases up <;> rfl

theorem fund_swapCase (t : Tok) : fund t.swapCase = (fund t).inv := by
  obtain ⟨fc, up⟩ := t
  cases fc <;> cases up <;>
    simp [Tok.swapCase, fund, F, R, U, B, L, D, f, r, u, b, l, d, move.inv_inv]

/-! ### Replay of token lists -/

theorem repl_nil : repl [] = move.one := rfl

theorem foldl_repl (l : List Tok) (M : move) :
    l.foldl (fun M a => (fund a).mul M) M = (repl l).mul M := by
  induction l generalizing M with
  | nil => simp [repl, move.one_mul]
  | cons a l ih =>
      simp only [List.foldl_cons, repl]
      rw [ih ((fund a).mul M), ih ((fund a).mul move.one)]
      rw [move.mul_assoc, move.mul_assoc]
      rw [move.one_mul]

theorem repl_cons (a : Tok) (l : List Tok) :
    repl (a :: l) = (repl l).mul (fund a) := by
  have : repl (a :: l) = l.foldl (fun M a => (fund a).mul M) ((fund a).mul move.one) := rfl
  rw [this, foldl_repl, move.mul_one]

theorem repl_append (l1 l2 : List Tok) :
    repl (l1 ++ l2) = (repl l2).mul (repl l1) := by
  have : repl (l1 ++ l2) = l2.foldl (fun M a => (fund a).mul M) (repl l1) := by
    simp [repl, List.foldl_append]
  rw [this, foldl_repl]

theorem repl_single (t : Tok) : repl [t] = fund t := by
  rw [repl_cons, repl_nil, move.one_mul]

theorem repl_inv_tokens (l : List Tok) :
    repl ((l.reverse).map Tok.swapCase) = (repl l).inv := by
  induction l with
  | nil => simp [repl_nil, move.one_inv]
  | cons a l ih =>
      have h1 : ((a :: l).reverse).map Tok.swapCase
          = (l.reverse).map Tok.swapCase ++ [a.swapCase] := by simp
      rw [h1, repl_append, repl_single, ih, repl_cons, move.mul_inv_rev,
        fund_swapCase]

/-! ### The moves the program can build -/

/-- Moves reachable from the twelve fundamental generators by the algebra
operations of the program (composition, inverse; integer powers reduce to
these). -/
inductive Built : move → Prop
  | one : Built move.one
  | fund (t : Tok) : Built (fund t)
  | mul {a bm : move} : Built a → Built bm → Built (a.mul bm)
  | inv {a : move} : Built a → Built a.inv

theorem Built.npow {a : move} (h : Built a) : ∀ n, Built (a.npow n)
  | 0 => Built.one
  | n + 1 => Built.mul (Built.npow h n) h

theorem Built.pow {a bm : move} (h : Built a) (n : ℤ)
    (hp : a.pow n = .ok bm) : Built bm := by
  unfold move.pow at hp
  split at hp
  · split at hp
    · cases hp; exact Built.one
    · split at hp
      · cases hp; exact Built.inv h
      · cases hp; exact Built.npow h _
  · cases hp

theorem Built.conjugate {a g : move} (ha : Built a) (hg : Built g) :
    Built (conjugate a g) :=
  Built.mul (Built.mul hg ha) (Built.inv hg)

theorem Built.commutator {a bm : move} (ha : Built a) (hb : Built bm) :
    Built (commutator a bm) :=
  Built.mul (Built.mul (Built.mul (Built.inv hb) (Built.inv ha)) hb) ha

theorem builtF : Built F := Built.fund ⟨.F, true⟩
theorem builtf : Built f := Built.inv builtF
theorem builtR : Built R := Built.fund ⟨.R, true⟩
theorem builtr : Built r := Built.inv builtR
theorem builtU : Built U := Built.fund ⟨.U, true⟩
theorem builtu : Built u := Built.inv builtU
theorem builtB : Built B := Built.fund ⟨.B, true⟩
theorem builtb : Built b := Built.inv builtB
theorem builtL : Built L := Built.fund ⟨.L, true⟩
theorem builtl : Built l := Built.inv builtL
theorem builtD : Built D := Built.fund ⟨.D, true⟩
theorem builtd : Built d := Built.inv builtD

theorem built_fund_l : ∀ m ∈ fund_l, Built m := by
  intro m hm
  simp only [fund_l, List.mem_cons, List.not_mem_nil, or_false] at hm
  rcases hm with h | h | h | h | h | h | h | h | h | h | h | h | h | h | h | h | h | h <;>
    subst h
  · exact builtF
  · exact builtF.npow 2
  · exact builtf
  · exact builtR
  · exact builtR.npow 2
  · exact builtr
  · exact builtU
  · exact builtU.npow 2
  · exact builtu
  · exact builtB
  · exact builtB.npow 2
  · exact builtb
  · exact builtL
  · exact builtL.npow 2
  · exact builtl
  · exact builtD
  · exact builtD.npow 2
  · exact builtd

theorem builtM0 : Built M0 := ((builtF.mul (builtU.commutator builtL)).npow 3)
theorem builtM1 : Built M1 :=
  ((builtf.mul builtL).npow 3).mul ((builtF.mul builtl).npow 3)
theorem builtM20 : Built M20 :=
  ((((((builtU.npow 2).mul builtF).mul builtb).mul (builtL.npow 2)).mul builtf).mul builtB)
theorem builtM21 : Built M21 :=
  ((((((builtB.npow 2).mul builtR).mul builtl).mul (builtU.npow 2)).mul builtr).mul builtL)
theorem builtM22 : Built M22 :=
  ((((((builtU.npow 2).mul builtR).mul builtl).mul (builtF.npow 2)).mul builtr).mul builtL)
theorem builtM23 : Built M23 :=
  ((((((builtB.npow 2).mul builtD).mul builtu).mul (builtR.npow 2)).mul builtd).mul builtU)
theorem builtM31 : Built M31 := by
  refine Built.mul ?_ builtL
  refine Built.mul ?_ builtL
  refine Built.mul ?_ builtB
  refine Built.mul ?_ builtf
  refine Built.mul ?_ builtD
  refine Built.mul ?_ builtB
  refine Built.mul ?_ builtf
  refine Built.mul ?_ builtR
  refine Built.mul ?_ builtB
  refine Built.mul ?_ builtf
  refine Built.mul ?_ builtU
  refine Built.mul ?_ builtU
  refine Built.mul ?_ builtF
  refine Built.mul ?_ builtb
  refine Built.mul ?_ builtR
  refine Built.mul ?_ builtF
  refine Built.mul ?_ builtb
  refine Built.mul ?_ builtD
  exact builtb.mul builtF

/-- The round-trip invariant: replaying a built move's token decomposition
reproduces the move, all four algebraic fields included. -/
theorem repl_roundtrip {m : move} (h : Built m) : repl m.decompo = m := by
  induction h with
  | one => rfl
  | fund t => rw [fund_decompo, repl_single]
  | mul ha hb iha ihb =>
      show repl (_ ++ _) = _
      rw [repl_append, iha, ihb]
  | inv ha ih =>
      show repl (List.map _ _) = _
      rw [repl_inv_tokens, ih]

/-! ### Conserved quantities of built moves: total twists and parity -/

theorem sumS3_built {m : move} (h : Built m) : ∑ i, m.S3 i = 0 := by
  induction h with
  | one => simp [move.one]
  | fund t =>
      obtain ⟨fc, up⟩ := t
      cases fc <;> cases up <;> decide
  | mul ha hb iha ihb =>
      show (∑ i, (_ + _)) = 0
      rw [Finset.sum_add_distrib, iha, Equiv.sum_comp _ (fun i => _), ihb]
      simp
  | inv ha ih =>
      show (∑ i, -_) = 0
      rw [Finset.sum_neg_distrib, Equiv.sum_comp _ (fun i => _), ih, neg_zero]

theorem sumS2_built {m : move} (h : Built m) : ∑ i, m.S2 i = 0 := by
  induction h with
  | one => simp [move.one]
  | fund t =>
      obtain ⟨fc, up⟩ := t
      cases fc <;> cases up <;> decide
  | mul ha hb iha ihb =>
      show (∑ i, (_ + _)) = 0
      rw [Finset.sum_add_distrib, iha, Equiv.sum_comp _ (fun i => _), ihb]
      simp
  | inv ha ih =>
      show (∑ i, -_) = 0
      rw [Finset.sum_neg_distrib, Equiv.sum_comp _ (fun i => _), ih, neg_zero]

theorem sign_trans {n : ℕ} (e g : Equiv.Perm (Fin n)) :
    Equiv.Perm.sign (e.trans g) = Equiv.Perm.sign e * Equiv.Perm.sign g := by
  have : e.trans g = g * e := rfl
  rw [this, map_mul, mul_comm]

theorem sign_symm {n : ℕ} (e : Equiv.Perm (Fin n)) :
    Equiv.Perm.sign e.symm = Equiv.Perm.sign e := by
  have : e.symm = e⁻¹ := rfl
  rw [this, map_inv]
  exact Int.units_inv_eq_self _

theorem sign_inv_move (a : move)
    (h : Equiv.Perm.sign a.A8 = Equiv.Perm.sign a.A12) :
    Equiv.Perm.sign a.inv.A8 = Equiv.Perm.sign a.inv.A12 := by
  show Equiv.Perm.sign (Equiv.symm _) = Equiv.Perm.sign (Equiv.symm _)
  rw [sign_symm, sign_symm, h]

theorem sign_mkMove (p8 : Fin 4 → Fin 8) (p3 : Fin 4 → ℕ) (p12 : Fin 4 → Fin 12)
    (p2 : Fin 4 → ℕ) (s : List Tok)
    (h1 : p8 0 ≠ p8 1) (h2 : p8 0 ≠ p8 2) (h3 : p8 0 ≠ p8 3)
    (h4 : p12 0 ≠ p12 1) (h5 : p12 0 ≠ p12 2) (h6 : p12 0 ≠ p12 3) :
    Equiv.Perm.sign (mkMove p8 p3 p12 p2 s).A8
      = Equiv.Perm.sign (mkMove p8 p3 p12 p2 s).A12 := by
  show Equiv.Perm.sign (mkA8 p8) = Equiv.Perm.sign (mkA12 p12)
  unfold mkA8 mkA12
  rw [sign_trans, sign_trans, sign_trans, sign_trans,
    Equiv.Perm.sign_swap h3, Equiv.Perm.sign_swap h2, Equiv.Perm.sign_swap h1,
    Equiv.Perm.sign_swap h6, Equiv.Perm.sign_swap h5, Equiv.Perm.sign_swap h4]

/-- The corner and edge permutations of a built move have the same sign:
every quarter turn is a 4-cycle (odd) on corners and on edges at once. -/
theorem sign_built {m : move} (h : Built m) :
    Equiv.Perm.sign m.A8 = Equiv.Perm.sign m.A12 := by
  induction h with
  | one => simp [move.one]
  | fund t =>
      obtain ⟨fc, up⟩ := t
      cases up
      · cases fc
        · exact sign_inv_move F (sign_mkMove _ _ _ _ _ (by decide) (by decide)
            (by decide) (by decide) (by decide) (by decide))
        · exact sign_inv_move R (sign_mkMove _ _ _ _ _ (by decide) (by decide)
            (by decide) (by decide) (by decide) (by decide))
        · exact sign_inv_move U (sign_mkMove _ _ _ _ _ (by decide) (by decide)
            (by decide) (by decide) (by decide) (by decide))
        · exact sign_inv_move B (sign_mkMove _ _ _ _ _ (by decide) (by decide)
            (by decide) (by decide) (by decide) (by decide))
        · exact sign_inv_move L (sign_mkMove _ _ _ _ _ (by decide) (by decide)
            (by decide) (by decide) (by decide) (by decide))
        · exact sign_inv_move D (sign_mkMove _ _ _ _ _ (by decide) (by decide)
            (by decide) (by decide) (by decide) (by decide))
      · cases fc <;> exact sign_mkMove _ _ _ _ _ (by decide) (by decide)
          (by decide) (by decide) (by decide) (by decide)
  | mul ha hb iha ihb =>
      show Equiv.Perm.sign (Equiv.trans _ _) = Equiv.Perm.sign (Equiv.trans _ _)
      rw [sign_trans, sign_trans, iha, ihb]
  | inv ha ih =>
      show Equiv.Perm.sign (Equiv.symm _) = Equiv.Perm.sign (Equiv.symm _)
      rw [sign_symm, sign_symm, ih]

/-! ### Concrete facts about the special moves -/

theorem M0_A8 : M0.A8 = Equiv.swap 1 3 := by
  apply Equiv.ext
  decide

theorem M1_A8 : M1.A8 = Equiv.refl _ := by
  apply Equiv.ext
  decide

theorem M1_S3_zero : ∀ k : Fin 8, k ≠ 0 → k ≠ 2 → M1.S3 k = 0 := by decide

theorem M1_S3_two : M1.S3 2 = 1 := by decide

/-- Each edge switcher permutes the corners trivially and twists no corner. -/
theorem switchers3_cornerTrivial :
    ∀ S ∈ switchers3, S.A8 = Equiv.refl (Fin 8) ∧ S.S3 = fun _ => 0 := by
  intro S hS
  simp only [switchers3, List.mem_cons, List.not_mem_nil, or_false] at hS
  rcases hS with h | h | h | h <;> subst h <;>
    exact ⟨Equiv.ext (by decide), funext (by decide)⟩

/-- Each edge switcher's edge permutation is supported on its zone triple
and cycles it in the direction the pipeline uses. -/
theorem switchers3_zone :
    ∀ p ∈ switchers3.zip zones3,
      p.1.A12 p.2.1 = p.2.2.1 ∧
      (∀ k : Fin 12, k ≠ p.2.1 → k ≠ p.2.2.1 → k ≠ p.2.2.2 → p.1.A12 k = k) := by
  intro p hp
  simp only [switchers3, zones3, List.zip_cons_cons, List.zip_nil_right,
    List.mem_cons, List.not_mem_nil, or_false] at hp
  rcases hp with h | h | h | h <;> subst h <;> exact ⟨by decide, by decide⟩

theorem builtSwitchers3 : ∀ S ∈ switchers3, Built S := by
  intro S hS
  simp only [switchers3, List.mem_cons, List.not_mem_nil, or_false] at hS
  rcases hS with h | h | h | h <;> subst h
  · exact builtM20
  · exact builtM21
  · exact builtM22
  · exact builtM23

theorem M31_A8 : M31.A8 = Equiv.refl _ := by
  apply Equiv.ext
  decide

theorem M31_S3 : M31.S3 = fun _ => 0 := by
  funext k
  revert k
  decide

theorem M31_A12 : M31.A12 = Equiv.refl _ := by
  apply Equiv.ext
  decide

theorem M31_S2_zero : ∀ k : Fin 12, k ≠ 0 → k ≠ 3 → M31.S2 k = 0 := by decide

theorem M31_S2_three : M31.S2 3 = 1 := by decide

/-! ### Soundness of the connector search -/

theorem mem_expand {n_combi : ℕ} {fact prev : List move} {a g : move}
    (ha : a ∈ fact) (hg : g ∈ prev)
    (hok : n_combi = 1 ∨ pruneHead a g = false) :
    a.mul g ∈ expand n_combi fact prev := by
  unfold expand
  refine List.mem_flatMap.mpr ⟨a, ha, List.mem_filterMap.mpr ⟨g, hg, ?_⟩⟩
  rcases hok with h | h
  · simp [h]
  · by_cases h1 : n_combi = 1 <;> simp [h1, h]

theorem expand_mem {n_combi : ℕ} {fact prev : List move} {x : move}
    (hx : x ∈ expand n_combi fact prev) :
    ∃ a ∈ fact, ∃ g ∈ prev, x = a.mul g := by
  unfold expand at hx
  obtain ⟨a, ha, hx⟩ := List.mem_flatMap.mp hx
  obtain ⟨g, hg, hfg⟩ := List.mem_filterMap.mp hx
  refine ⟨a, ha, g, hg, ?_⟩
  by_cases h1 : n_combi = 1
  · simp [h1] at hfg; exact hfg.symm
  · simp only [h1, if_false] at hfg
    by_cases h2 : pruneHead a g <;> simp [h2] at hfg
    exact hfg.symm

/-- Soundness: a move returned by the search passes the success test and is
an iterated product of elements of `move.one :: auth` over the initial
candidates.  (The property `P` is arbitrary; instantiating it gives that
results over `fund_l` are `Built`, and similar closure facts.) -/
theorem searchGo_sound (good : move → Bool) (auth : List move)
    (maxMove : ℕ) (P : move → Prop)
    (hP : ∀ a, (a = move.one ∨ a ∈ auth) → ∀ g, P g → P (a.mul g)) :
    ∀ fuel n_combi prev,
      (∀ g ∈ prev, P g) →
      ∀ m, searchGo good auth maxMove fuel n_combi prev = some m →
        good m = true ∧ P m := by
  intro fuel
  induction fuel with
  | zero =>
      intro n_combi prev hprev m hm
      cases hm
  | succ fuel ih =>
      intro n_combi prev hprev m hm
      rw [searchGo] at hm
      by_cases hg : n_combi > maxMove
      · simp [hg] at hm
      · simp only [hg, if_false] at hm
        set fact := if n_combi = 1 then move.one :: auth else auth with hfact
        set cur := expand n_combi fact prev with hcur
        have hcurP : ∀ x ∈ cur, P x := by
          intro x hx
          obtain ⟨a, ha, g, hgm, rfl⟩ := expand_mem hx
          refine hP a ?_ g (hprev g hgm)
          by_cases h1 : n_combi = 1
          · rw [hfact] at ha; simp only [h1, if_true] at ha
            rcases List.mem_cons.mp ha with h | h
            · exact Or.inl h
            · exact Or.inr h
          · rw [hfact] at ha; simp only [h1, if_false] at ha
            exact Or.inr ha
        rcases hfind : cur.find? good with _ | x
        · rw [hfind] at hm
          exact ih (n_combi + 1) _
            (fun g hgm => hcurP g (List.mem_of_mem_filter hgm)) m hm
        · rw [hfind] at hm
          cases hm
          exact ⟨List.find?_some hfind, hcurP _ (List.mem_of_find?_eq_some hfind)⟩

theorem searchMoves_sound (good : move → Bool) (auth : List move)
    (maxMove : ℕ) (P : move → Prop)
    (hP : ∀ a, (a = move.one ∨ a ∈ auth) → ∀ g, P g → P (a.mul g)) :
    ∀ n_combi prev,
      (∀ g ∈ prev, P g) →
      ∀ m, searchMoves good auth maxMove n_combi prev = some m →
        good m = true ∧ P m := by
  intro n_combi prev hprev m hm
  exact searchGo_sound good auth maxMove P hP _ n_combi prev hprev m hm

/-! ### Completeness of the connector search -/

/-- The candidate obtained by composing the factors `ws` in choice order
onto an existing candidate `g`. -/
def candFrom (g : move) (ws : List move) : move :=
  ws.foldl (fun h a => a.mul h) g

/-- The chain `ws` survives the pruning when composed, factor by factor,
onto the candidate `g`. -/
def extOK (g : move) : List move → Bool
  | [] => true
  | a :: rest => !pruneHead a g && extOK (a.mul g) rest

theorem searchGo_complete_aux (good : move → Bool) (auth : List move)
    (maxMove : ℕ) :
    ∀ (rest : List move) (n_combi : ℕ) (g : move) (prev : List move),
      2 ≤ n_combi → rest ≠ [] →
      g ∈ prev → g.decompo ≠ [] →
      (∀ a ∈ rest, a ∈ auth) → (∀ a ∈ rest, a.decompo ≠ []) →
      extOK g rest = true →
      n_combi + rest.length ≤ maxMove + 1 →
      good (candFrom g rest) = true →
      ∃ m, searchGo good auth maxMove (maxMove + 1 - n_combi) n_combi prev
        = some m := by
  intro rest
  induction rest with
  | nil => intro _ _ _ _ hne; exact absurd rfl hne
  | cons a rest ih =>
      intro n_combi g prev h2 _ hgprev hgdec hmem hdec hext hlen hgood
      have hlen' : n_combi + (rest.length + 1) ≤ maxMove + 1 :=
        List.length_cons a rest ▸ hlen
      obtain ⟨fuel', hfuel⟩ : ∃ k, maxMove + 1 - n_combi = k + 1 :=
        ⟨maxMove - n_combi, by omega⟩
      rw [hfuel, searchGo]
      have hng : ¬ n_combi > maxMove := by omega
      simp only [hng, if_false]
      have hne1 : n_combi ≠ 1 := by omega
      have hfacta : a ∈ (if n_combi = 1 then move.one :: auth else auth) := by
        simp only [hne1, if_false]
        exact hmem a (List.mem_cons_self _ _)
      have hext' := hext
      unfold extOK at hext'
      rw [Bool.and_eq_true, Bool.not_eq_true'] at hext'
      obtain ⟨hprune, hext2⟩ := hext'
      have hcand : a.mul g ∈ expand n_combi
          (if n_combi = 1 then move.one :: auth else auth) prev :=
        mem_expand hfacta hgprev (Or.inr hprune)
      rcases hfind : (expand n_combi (if n_combi = 1 then move.one :: auth else auth)
          prev).find? good with _ | x
      · cases rest with
        | nil =>
            exfalso
            have := List.find?_eq_none.mp hfind _ hcand
            unfold candFrom at hgood
            simp at hgood
            exact this hgood
        | cons bm rest' =>
            have hdecmul : (a.mul g).decompo ≠ [] := by
              show g.decompo ++ a.decompo ≠ []
              intro h
              exact hdec a (List.mem_cons_self _ _) (List.append_eq_nil.mp h).2
            have hmem' : a.mul g ∈ (expand n_combi
                (if n_combi = 1 then move.one :: auth else auth) prev).filter
                  (fun m => !m.decompo.isEmpty) := by
              refine List.mem_filter.mpr ⟨hcand, ?_⟩
              simp [hdecmul]
            have hres := ih (n_combi + 1) (a.mul g) _ (by omega) (by simp)
              hmem' hdecmul
              (fun x hx => hmem x (List.mem_cons_of_mem a hx))
              (fun x hx => hdec x (List.mem_cons_of_mem a hx))
              hext2 (by simp_all; omega)
              hgood
            rwa [show maxMove + 1 - (n_combi + 1) = fuel' from by omega] at hres
      · exact ⟨x, rfl⟩

/-- Completeness, entry form: if some non-empty pruning-respecting chain of
authorized factors of length at most `maxMove` passes the success test,
the search succeeds. -/
theorem searchMoves_complete (good : move → Bool) (auth : List move)
    (maxMove : ℕ) (a : move) (rest : List move)
    (hmem : ∀ x ∈ a :: rest, x ∈ auth)
    (hdec : ∀ x ∈ a :: rest, x.decompo ≠ [])
    (hext : extOK (a.mul move.one) rest = true)
    (hlen : (a :: rest).length ≤ maxMove)
    (hgood : good (candFrom (a.mul move.one) rest) = true) :
    ∃ m, searchMoves good auth maxMove 1 [move.one] = some m := by
  have hlen' : rest.length + 1 ≤ maxMove := List.length_cons a rest ▸ hlen
  unfold searchMoves
  obtain ⟨fuel', hfuel⟩ : ∃ k, maxMove + 1 - 1 = k + 1 := ⟨maxMove - 1, by omega⟩
  rw [hfuel, searchGo]
  have hng : ¬ 1 > maxMove := by omega
  simp only [hng, if_false]
  rw [show (if True then move.one :: auth else auth) = move.one :: auth from rfl]
  have hcand : a.mul move.one ∈ expand 1 (move.one :: auth) [move.one] :=
    mem_expand (List.mem_cons_of_mem _ (hmem a (List.mem_cons_self _ _))) (by simp)
      (Or.inl rfl)
  rcases hfind : (expand 1 (move.one :: auth) [move.one]).find? good with _ | x
  · cases rest with
    | nil =>
        exfalso
        have := List.find?_eq_none.mp hfind _ hcand
        unfold candFrom at hgood
        simp at hgood
        exact this hgood
    | cons bm rest' =>
        have hdecmul : (a.mul move.one).decompo ≠ [] := by
          show move.one.decompo ++ a.decompo ≠ []
          intro h
          exact hdec a (List.mem_cons_self _ _) (List.append_eq_nil.mp h).2
        have hmem' : a.mul move.one ∈ (expand 1 (move.one :: auth)
            [move.one]).filter (fun m => !m.decompo.isEmpty) := by
          refine List.mem_filter.mpr ⟨hcand, ?_⟩
          simp [hdecmul]
        have hres := searchGo_complete_aux good auth maxMove (bm :: rest') 2
          (a.mul move.one) _ (by omega) (by simp) hmem' hdecmul
          (fun x hx => hmem x (List.mem_cons_of_mem a hx))
          (fun x hx => hdec x (List.mem_cons_of_mem a hx))
          hext (by simp_all; omega)
          hgood
        rwa [show maxMove + 1 - 2 = fuel' from by omega] at hres
  · exact ⟨x, rfl⟩

/-- The identity candidate `move(seq=[]) * move(seq=[])` is the first
depth-1 candidate; if it passes the test the search returns it at once. -/
theorem searchMoves_identity (good : move → Bool) (auth : List move)
    (maxMove : ℕ) (hmax : 1 ≤ maxMove)
    (hgood : good (move.one.mul move.one) = true) :
    searchMoves good auth maxMove 1 [move.one] = some (move.one.mul move.one) := by
  unfold searchMoves
  obtain ⟨fuel', hfuel⟩ : ∃ k, maxMove + 1 - 1 = k + 1 := ⟨maxMove - 1, by omega⟩
  rw [hfuel, searchGo]
  have hng : ¬ 1 > maxMove := by omega
  simp only [hng, if_false]
  rw [show (if True then move.one :: auth else auth) = move.one :: auth from rfl]
  have hexp : expand 1 (move.one :: auth) [move.one]
      = move.one.mul move.one :: auth.flatMap
          (fun m => [move.one].filterMap (fun g => if (1 : ℕ) = 1
            then some (m.mul g) else if pruneHead m g then none
            else some (m.mul g))) := by
    simp [expand]
  rw [hexp, List.find?_cons_of_pos _ hgood]

/-! ### Search-success certificates for the pipeline

For every defect the pipeline can encounter, the corresponding connector
search succeeds.  Each certificate is a list of indices into the authorized
list; the checker verifies that the indexed factors form a legal
pruning-respecting chain within the depth bound whose product passes the
success test, and the completeness theorem then turns the certificate into
success of the search itself. -/

def authAt (auth : List move) (n : ℕ) : move := auth.getD n move.one

theorem authAt_mem {auth : List move} {n : ℕ} (h : n < auth.length) :
    authAt auth n ∈ auth := by
  unfold authAt
  rw [List.getD_eq_getElem auth move.one h]
  exact List.getElem_mem h

/-- Certificate checker: the indexed chain is in bounds, has non-empty
token lists, respects the pruning, fits the depth bound, and its composed
candidate passes `good`; the empty certificate stands for the identity
candidate. -/
def witnessOK (good : move → Bool) (auth : List move) (maxMove : ℕ)
    (idxs : List ℕ) : Bool :=
  match idxs with
  | [] => decide (1 ≤ maxMove) && good (move.one.mul move.one)
  | n :: ns =>
      let a := authAt auth n
      let rest := ns.map (authAt auth)
      (n :: ns).all (fun k => decide (k < auth.length)) &&
      (a :: rest).all (fun x => !x.decompo.isEmpty) &&
      extOK (a.mul move.one) rest &&
      decide ((a :: rest).length ≤ maxMove) &&
      good (candFrom (a.mul move.one) rest)

theorem witnessOK_spec (good : move → Bool) (auth : List move) (maxMove : ℕ)
    (idxs : List ℕ) (h : witnessOK good auth maxMove idxs = true) :
    ∃ m, searchMoves good auth maxMove 1 [move.one] = some m := by
  match idxs with
  | [] =>
      unfold witnessOK at h
      rw [Bool.and_eq_true] at h
      exact ⟨_, searchMoves_identity good auth maxMove (of_decide_eq_true h.1) h.2⟩
  | n :: ns =>
      unfold witnessOK at h
      simp only [Bool.and_eq_true, List.all_eq_true] at h
      obtain ⟨⟨⟨⟨hidx, hdec⟩, hext⟩, hlen⟩, hgood⟩ := h
      refine searchMoves_complete good auth maxMove (authAt auth n)
        (ns.map (authAt auth)) ?_ ?_ hext (of_decide_eq_true hlen) hgood
      · intro x hx
        rcases List.mem_cons.mp hx with hx | hx
        · subst hx
          exact authAt_mem (of_decide_eq_true (hidx n (List.mem_cons_self _ _)))
        · obtain ⟨k, hk, rfl⟩ := List.mem_map.mp hx
          exact authAt_mem (of_decide_eq_true (hidx k (List.mem_cons_of_mem _ hk)))
      · intro x hx
        have := hdec x hx
        simpa using this

/-- Certificates for the corner-position phase: `send_8(1, 3, i, j, fund_l)`
for every defect pair `i < j`. -/
def w8 : Fin 8 → Fin 8 → List ℕ :=
  ![![[], [14], [13], [15], [13,2], [14,9], [15,7], [15,6]],
    ![[], [], [8], [], [7,0], [9], [7], [6]],
    ![[], [], [], [12], [16,8], [10,7], [13,0], [8,10]],
    ![[], [], [], [], [16], [17], [12,0], [11]],
    ![[], [], [], [], [], [10,3], [13,1], [16,6]],
    ![[], [], [], [], [], [], [10,6], [10]],
    ![[], [], [], [], [], [], [], [10,5]],
    ![[], [], [], [], [], [], [], []]]

theorem w8_check : ∀ i j : Fin 8, i < j →
    witnessOK (good8 1 3 i j) fund_l 5 (w8 i j) = true := by decide

theorem send8_success (i j : Fin 8) (hij : i < j) :
    ∃ G, send_8 1 3 i j fund_l = some G :=
  witnessOK_spec _ _ _ _ (w8_check i j hij)

/-- Certificates for the corner-orientation phase:
`send_8_slow(0, 2, 0, i, fund_l)` for `i = 1..7`. -/
def w8s : Fin 8 → List ℕ :=
  ![[], [6,9], [], [6], [7,4], [7,3], [8], [7]]

theorem w8s_check : ∀ i : Fin 8, 0 < i →
    witnessOK (good8slow 0 2 0 i) fund_l 5 (w8s i) = true := by decide

theorem send8slow_success (i : Fin 8) (hi : 0 < i) :
    ∃ G, send_8_slow 0 2 0 i fund_l = some G :=
  witnessOK_spec _ _ _ _ (w8s_check i hi)

/-- Certificates for the edge-orientation phase:
`send_12_slow(0, 3, 0, i, fund_l)` for `i = 1..11`. -/
def w12s : Fin 12 → List ℕ :=
  ![[], [8,2], [6,9], [], [8,1], [6,10], [8], [6], [7,4], [8,0], [7,3], [7]]

theorem w12s_check : ∀ i : Fin 12, 0 < i →
    witnessOK (good12slow 0 3 0 i) fund_l 3 (w12s i) = true := by decide

theorem send12slow_success (i : Fin 12) (hi : 0 < i) :
    ∃ G, send_12_slow 0 3 0 i fund_l = some G :=
  witnessOK_spec _ _ _ _ (w12s_check i hi)

/-- Switcher choice for the edge-position phase: for each defect pair a
zone index whose `send_12` succeeds. -/
def w12k : Fin 12 → Fin 12 → ℕ :=
  ![![0,0,0,0,0,0,0,0,0,0,0,0],
    ![0,0,0,0,0,0,0,0,0,0,0,0],
    ![0,0,0,0,0,0,0,0,0,0,0,0],
    ![0,0,0,0,0,0,0,0,0,0,0,0],
    ![0,0,0,0,0,0,0,0,0,0,0,0],
    ![0,0,0,0,0,0,0,0,0,0,0,0],
    ![0,0,0,0,0,0,0,0,0,0,0,1],
    ![0,0,0,0,0,0,0,0,3,0,0,1],
    ![0,0,0,0,0,0,0,0,0,0,0,0],
    ![0,0,0,0,0,0,0,0,0,0,0,0],
    ![0,0,0,0,0,0,0,0,0,0,0,0],
    ![0,0,0,0,0,0,0,0,0,0,0,0]]

/-- Certificates for the edge-position phase, for the zone selected by
`w12k`. -/
def w12 : Fin 12 → Fin 12 → List ℕ :=
  ![![[], [8,2], [6,9], [], [8,1], [6,10], [8], [6], [7,4], [8,0], [7,3], [7]],
    ![[], [], [14], [15,0], [13,15,12], [14,9], [8,14], [14,11], [14,10,3], [15,8,0], [14,10], [7,14]],
    ![[], [], [], [17,11], [12,2], [6,10,12], [12,0], [6,12], [12,1,5], [12,1], [12,1,4], [7,12,0]],
    ![[], [], [], [], [13,15], [13,17], [8,13], [6,13], [13,16], [8,13,0], [13,16,5], [13,16,4]],
    ![[], [], [], [], [], [14,9,2], [15,8], [15,6], [8,1,15], [8,0,15], [14,10,2], [15,3,7]],
    ![[], [], [], [], [], [], [17,8], [17,6], [15,13,16], [17,8,0], [6,11,17], [17,3,7]],
    ![[], [], [], [], [], [], [], [14,11,0], [13,16,8], [8,14,0], [14,10,0], [11,12,8]],
    ![[], [], [], [], [], [], [], [], [5,11], [12,11,1], [17,14,10], [8,14,10]],
    ![[], [], [], [], [], [], [], [], [], [16,12,1], [16,14,10], [3,16,7]],
    ![[], [], [], [], [], [], [], [], [], [], [14,10,1], [16,3,7]],
    ![[], [], [], [], [], [], [], [], [], [], [], []],
    ![[], [], [], [], [], [], [], [], [], [], [], []]]

theorem w12_check : ∀ i j : Fin 12, (i : ℕ) < 10 → i < j →
    w12k i j < 4 ∧
    witnessOK (good12 (zones3.getD (w12k i j) (0, 0, 0)).1
        (zones3.getD (w12k i j) (0, 0, 0)).2.1
        (zones3.getD (w12k i j) (0, 0, 0)).2.2 i j) fund_l 3 (w12 i j) = true := by
  decide

theorem zipEntry_mem (k : ℕ) (hk : k < 4) :
    (switchers3.getD k move.one, zones3.getD k (0, 0, 0))
      ∈ switchers3.zip zones3 := by
  interval_cases k
  · exact List.mem_cons_self _ _
  · exact List.mem_cons_of_mem _ (List.mem_cons_self _ _)
  · exact List.mem_cons_of_mem _ (List.mem_cons_of_mem _ (List.mem_cons_self _ _))
  · exact List.mem_cons_of_mem _ (List.mem_cons_of_mem _
      (List.mem_cons_of_mem _ (List.mem_cons_self _ _)))

theorem firstSwitcher_some {auth : List move} {fi j : Fin 12}
    (lst : List (move × (Fin 12 × Fin 12 × Fin 12)))
    (h : ∃ p ∈ lst, ∃ G, send_12 p.2.1 p.2.2.1 p.2.2.2 fi j auth = some G) :
    ∃ nx, firstSwitcher auth fi j lst = some nx := by
  induction lst with
  | nil => obtain ⟨p, hp, _⟩ := h; cases hp
  | cons q rest ih =>
      unfold firstSwitcher
      rcases hq : send_12 q.2.1 q.2.2.1 q.2.2.2 fi j auth with _ | G
      · obtain ⟨p, hp, G, hG⟩ := h
        rcases List.mem_cons.mp hp with hp | hp
        · subst hp; rw [hq] at hG; cases hG
        · exact ih ⟨p, hp, G, hG⟩
      · exact ⟨conjugate q.1 G, rfl⟩

theorem firstSwitcher_success (i j : Fin 12) (hi : (i : ℕ) < 10) (hij : i < j) :
    ∃ nx, firstSwitcher fund_l i j (switchers3.zip zones3) = some nx := by
  obtain ⟨hk, hcheck⟩ := w12_check i j hi hij
  refine firstSwitcher_some _ ⟨(switchers3.getD (w12k i j) move.one,
    zones3.getD (w12k i j) (0, 0, 0)), zipEntry_mem _ hk, ?_⟩
  exact witnessOK_spec _ _ _ _ hcheck

/-! ### Properties of moves returned by the searches over `fund_l` -/

theorem searchMoves_built {good : move → Bool} {maxMove : ℕ} {m : move}
    (h : searchMoves good fund_l maxMove 1 [move.one] = some m) :
    good m = true ∧ Built m := by
  refine searchMoves_sound good fund_l maxMove Built ?_ 1 [move.one] ?_ m h
  · intro a ha g hg
    rcases ha with rfl | ha
    · exact Built.mul Built.one hg
    · exact Built.mul (built_fund_l a ha) hg
  · intro g hg
    rcases List.mem_cons.mp hg with rfl | hg
    · exact Built.one
    · cases hg

theorem send8_props {cl1 cl2 : Fin 8} {G : move}
    (h : send_8 1 3 cl1 cl2 fund_l = some G) :
    Built G ∧ ((G.A8 cl1 = 1 ∧ G.A8 cl2 = 3) ∨ (G.A8 cl1 = 3 ∧ G.A8 cl2 = 1)) := by
  obtain ⟨hgood, hbuilt⟩ := searchMoves_built h
  refine ⟨hbuilt, ?_⟩
  simpa [good8, Bool.or_eq_true, Bool.and_eq_true, beq_iff_eq] using hgood

theorem send8slow_props {c2 cl1 cl2 : Fin 8} {G : move}
    (h : send_8_slow 0 c2 cl1 cl2 fund_l = some G) :
    Built G ∧ G.A8 cl1 = 0 ∧ G.A8 cl2 = c2 := by
  obtain ⟨hgood, hbuilt⟩ := searchMoves_built h
  refine ⟨hbuilt, ?_⟩
  simpa [good8slow, Bool.and_eq_true, beq_iff_eq] using hgood

theorem send12_props {cb1 cb2 cb3 cl1 cl2 : Fin 12} {G : move}
    (h : send_12 cb1 cb2 cb3 cl1 cl2 fund_l = some G) :
    Built G ∧ G.A12 cl1 = cb1 ∧ G.A12 cl2 = cb2 ∧
      ∃ k : Fin 12, cl1 < k ∧ G.A12 k = cb3 := by
  obtain ⟨hgood, hbuilt⟩ := searchMoves_built h
  refine ⟨hbuilt, ?_⟩
  simp only [good12, Bool.and_eq_true, beq_iff_eq, List.any_eq_true,
    decide_eq_true_eq] at hgood
  obtain ⟨⟨h1, h2⟩, k, _, hk1, hk2⟩ := hgood
  exact ⟨h1, h2, k, hk1, hk2⟩

theorem send12slow_props {c2 cl1 cl2 : Fin 12} {G : move}
    (h : send_12_slow 0 c2 cl1 cl2 fund_l = some G) :
    Built G ∧ G.A12 cl1 = 0 ∧ G.A12 cl2 = c2 := by
  obtain ⟨hgood, hbuilt⟩ := searchMoves_built h
  refine ⟨hbuilt, ?_⟩
  simpa [good12slow, Bool.and_eq_true, beq_iff_eq] using hgood

theorem firstSwitcher_inv {auth : List move} {fi j : Fin 12} {nx : move} :
    ∀ {lst : List (move × (Fin 12 × Fin 12 × Fin 12))},
      firstSwitcher auth fi j lst = some nx →
      ∃ p ∈ lst, ∃ G, send_12 p.2.1 p.2.2.1 p.2.2.2 fi j auth = some G ∧
        nx = conjugate p.1 G := by
  intro lst
  induction lst with
  | nil => intro h; cases h
  | cons q rest ih =>
      intro h
      unfold firstSwitcher at h
      rcases hq : send_12 q.2.1 q.2.2.1 q.2.2.2 fi j auth with _ | G
      · rw [hq] at h
        obtain ⟨p, hp, G, hG, hnx⟩ := ih h
        exact ⟨p, List.mem_cons_of_mem _ hp, G, hG, hnx⟩
      · rw [hq] at h
        cases h
        exact ⟨q, List.mem_cons_self _ _, G, hq, rfl⟩

/-! ### Effect of conjugated switchers -/

theorem conjugate_A8_apply (Am G : move) (x : Fin 8) :
    (conjugate Am G).A8 x = G.A8.symm (Am.A8 (G.A8 x)) := rfl

theorem conjugate_A12_apply (Am G : move) (x : Fin 12) :
    (conjugate Am G).A12 x = G.A12.symm (Am.A12 (G.A12 x)) := rfl

theorem conj_swap_A8 (G : move) (i j : Fin 8) (Am : move)
    (hA : Am.A8 = Equiv.swap (G.A8 i) (G.A8 j)) :
    (conjugate Am G).A8 = Equiv.swap i j := by
  apply Equiv.ext; intro x
  rw [conjugate_A8_apply, hA]
  rcases eq_or_ne x i with rfl | hxi
  · rw [Equiv.swap_apply_left, Equiv.symm_apply_apply, Equiv.swap_apply_left]
  · rcases eq_or_ne x j with rfl | hxj
    · rw [Equiv.swap_apply_right, Equiv.symm_apply_apply, Equiv.swap_apply_right]
    · rw [Equiv.swap_apply_of_ne_of_ne (fun hc => hxi (G.A8.injective hc))
        (fun hc => hxj (G.A8.injective hc)), Equiv.symm_apply_apply,
        Equiv.swap_apply_of_ne_of_ne hxi hxj]

theorem conj_A8_of_id (Am G : move) (h : Am.A8 = Equiv.refl _) :
    (conjugate Am G).A8 = Equiv.refl _ := by
  apply Equiv.ext; intro x
  rw [conjugate_A8_apply, h]
  exact G.A8.symm_apply_apply x

theorem conj_A12_of_id (Am G : move) (h : Am.A12 = Equiv.refl _) :
    (conjugate Am G).A12 = Equiv.refl _ := by
  apply Equiv.ext; intro x
  rw [conjugate_A12_apply, h]
  exact G.A12.symm_apply_apply x

theorem conj_S3_of_id (Am G : move) (h : Am.A8 = Equiv.refl _) :
    (conjugate Am G).S3 = fun k => Am.S3 (G.A8 k) := by
  funext k
  show G.S3 k + Am.S3 (G.A8 k) + -(G.S3 (G.A8.symm (Am.A8 (G.A8 k)))) = _
  rw [h]
  show G.S3 k + Am.S3 (G.A8 k) + -(G.S3 (G.A8.symm (G.A8 k))) = _
  rw [G.A8.symm_apply_apply]
  ring

theorem conj_S2_of_id (Am G : move) (h : Am.A12 = Equiv.refl _) :
    (conjugate Am G).S2 = fun k => Am.S2 (G.A12 k) := by
  funext k
  show G.S2 k + Am.S2 (G.A12 k) + -(G.S2 (G.A12.symm (Am.A12 (G.A12 k)))) = _
  rw [h]
  show G.S2 k + Am.S2 (G.A12 k) + -(G.S2 (G.A12.symm (G.A12 k))) = _
  rw [G.A12.symm_apply_apply]
  ring

/-! ### Phase 1: the corner-position loop -/

theorem scpGo_spec : ∀ (fuel i : ℕ), i + fuel = 8 →
    ∀ (y : Equiv.Perm (Fin 8)) (res : move),
    (∀ k : Fin 8, (k : ℕ) < i → y k = k) →
    ∃ w, solve_corner_posGo M0 1 3 fund_l fuel i y res = .ok (w.mul res)
      ∧ Built w ∧ w.A8.trans y = Equiv.refl _ := by
  intro fuel
  induction fuel with
  | zero =>
      intro i hi y res hy
      refine ⟨move.one, ?_, Built.one, ?_⟩
      · rw [move.one_mul]; rfl
      · apply Equiv.ext; intro k
        exact hy k (by omega)
  | succ fuel ih =>
      intro i hi y res hy
      have h8 : i < 8 := by omega
      rw [solve_corner_posGo]
      simp only [h8, dite_true]
      set fi : Fin 8 := ⟨i, h8⟩ with hfi
      have hval : (fi : ℕ) = i := rfl
      by_cases hyi : y fi = fi
      · simp only [hyi, if_true]
        refine ih (i + 1) (by omega) y res ?_
        intro k hk
        rcases Nat.lt_or_ge (k : ℕ) i with h | h
        · exact hy k h
        · have : k = fi := Fin.ext (by omega)
          rw [this, hyi]
      · simp only [hyi, if_false]
        have hj0 : ∃ k : Fin 8, (decide (fi < k) && (y k == fi)) = true := by
          refine ⟨y.symm fi, ?_⟩
          have hyj : y (y.symm fi) = fi := y.apply_symm_apply fi
          have hne : y.symm fi ≠ fi := by
            intro hc
            rw [hc] at hyj
            exact hyi hyj
          have hgt : fi < y.symm fi := by
            have hge : ¬ ((y.symm fi : ℕ) < i) := by
              intro hlt
              have h2 := hy (y.symm fi) hlt
              rw [hyj] at h2
              exact hne h2.symm
            have hvne : ((y.symm fi : Fin 8) : ℕ) ≠ i := by
              intro hc
              exact hne (Fin.ext (by simpa [hfi] using hc))
            rw [Fin.lt_def]
            show i < ((y.symm fi : Fin 8) : ℕ)
            omega
          simp [hgt, hyj]
        rcases hfind : (List.finRange 8).find?
            (fun k => decide (fi < k) && (y k == fi)) with _ | j
        · exfalso
          obtain ⟨k, hk⟩ := hj0
          exact absurd hk (by
            have := List.find?_eq_none.mp hfind k (List.mem_finRange k)
            simpa using this)
        · have hjp := List.find?_some hfind
          rw [Bool.and_eq_true, decide_eq_true_eq, beq_iff_eq] at hjp
          obtain ⟨hij, hyj⟩ := hjp
          obtain ⟨G, hG⟩ := send8_success fi j hij
          simp only [hG]
          obtain ⟨hGb, hGor⟩ := send8_props hG
          have hnext : (conjugate M0 G).A8 = Equiv.swap fi j := by
            rcases hGor with ⟨h1, h2⟩ | ⟨h1, h2⟩
            · exact conj_swap_A8 G fi j M0 (by rw [h1, h2]; exact M0_A8)
            · exact conj_swap_A8 G fi j M0
                (by rw [h1, h2, Equiv.swap_comm]; exact M0_A8)
          have hinv : ∀ k : Fin 8, (k : ℕ) < i + 1 →
              ((conjugate M0 G).A8.trans y) k = k := by
            intro k hk
            show y ((conjugate M0 G).A8 k) = k
            rw [hnext]
            rcases Nat.lt_or_ge (k : ℕ) i with h | h
            · have hkfi : k ≠ fi := by
                intro hc; rw [hc] at h; omega
              have hkj : k ≠ j := by
                intro hc
                have h2 : (fi : ℕ) < (k : ℕ) := by rw [hc]; exact hij
                omega
              rw [Equiv.swap_apply_of_ne_of_ne hkfi hkj]
              exact hy k h
            · have hkfi : k = fi := Fin.ext (by omega)
              rw [hkfi, Equiv.swap_apply_left]
              exact hyj
          obtain ⟨w, hgo, hwb, hwid⟩ := ih (i + 1) (by omega)
            ((conjugate M0 G).A8.trans y) ((conjugate M0 G).mul res) hinv
          refine ⟨w.mul (conjugate M0 G), ?_, ?_, ?_⟩
          · rw [hgo, move.mul_assoc]
          · exact Built.mul hwb (Built.conjugate builtM0 hGb)
          · show (w.A8.trans (conjugate M0 G).A8).trans y = _
            rw [Equiv.trans_assoc]
            exact hwid

/-- Phase 1 wrapper: on any corner position permutation the phase succeeds,
returns a built move, and restores all corner positions. -/
theorem solve_corner_pos_spec (y : Equiv.Perm (Fin 8)) :
    ∃ w, solve_corner_pos y M0 1 3 fund_l = .ok w
      ∧ Built w ∧ w.A8.trans y = Equiv.refl _ := by
  obtain ⟨w, hgo, hwb, hwid⟩ := scpGo_spec 8 0 rfl y move.one (by omega)
  exact ⟨w.mul move.one, hgo, Built.mul hwb Built.one, by
    show (w.A8.trans move.one.A8).trans y = _
    rw [show (move.one.A8) = Equiv.refl (Fin 8) from rfl, Equiv.trans_refl]
    exact hwid⟩

/-! ### Phase 2: the corner-orientation loop -/

theorem npow2_A8_of_id (c : move) (h : c.A8 = Equiv.refl _) :
    (c.npow 2).A8 = Equiv.refl _ := by
  show ((move.one.mul c).mul c).A8 = _
  apply Equiv.ext; intro x
  simp [move.mul, move.one, h]

theorem npow2_S3_of_id (c : move) (h : c.A8 = Equiv.refl _) :
    (c.npow 2).S3 = fun k => c.S3 k + c.S3 k := by
  show ((move.one.mul c).mul c).S3 = _
  funext k
  simp [move.mul, move.one, h]

theorem pccGo_spec : ∀ (fuel i : ℕ), i + fuel = 8 → 1 ≤ i →
    ∀ (y : Fin 8 → ZMod 3) (res : move),
    (∀ k : Fin 8, 1 ≤ (k : ℕ) → (k : ℕ) < i → y k = 0) →
    ∃ w, pivot_corner_cubiesGo M1 2 fund_l fuel i y res = .ok (w.mul res)
      ∧ Built w ∧ w.A8 = Equiv.refl _ ∧
      (∀ k : Fin 8, 1 ≤ (k : ℕ) → y k + w.S3 k = 0) := by
  intro fuel
  induction fuel with
  | zero =>
      intro i hi h1 y res hy
      refine ⟨move.one, ?_, Built.one, rfl, ?_⟩
      · rw [move.one_mul]; rfl
      · intro k hk
        have : y k = 0 := hy k hk (by omega)
        simp [move.one, this]
  | succ fuel ih =>
      intro i hi h1 y res hy
      have h8 : i < 8 := by omega
      rw [pivot_corner_cubiesGo]
      simp only [h8, dite_true]
      set fi : Fin 8 := ⟨i, h8⟩ with hfi
      have hval : (fi : ℕ) = i := rfl
      have hfipos : (0 : Fin 8) < fi := by
        rw [Fin.lt_def]; show 0 < i; omega
      -- the two defect branches share everything except the flip count
      have main : ∀ (next : move), Built next →
          next.A8 = Equiv.refl _ →
          (∀ k : Fin 8, 1 ≤ (k : ℕ) → (k : ℕ) < i → next.S3 k = 0) →
          y fi + next.S3 fi = 0 →
          ∃ w, pivot_corner_cubiesGo M1 2 fund_l fuel (i + 1)
              (fun k => y (next.A8 k) + next.S3 k) (next.mul res) = .ok (w.mul res)
            ∧ Built w ∧ w.A8 = Equiv.refl _ ∧
            (∀ k : Fin 8, 1 ≤ (k : ℕ) → y k + w.S3 k = 0) := by
        intro next hnb hnA hnz hnfi
        have hinv : ∀ k : Fin 8, 1 ≤ (k : ℕ) → (k : ℕ) < i + 1 →
            (fun k => y (next.A8 k) + next.S3 k) k = 0 := by
          intro k hk1 hk2
          show y (next.A8 k) + next.S3 k = 0
          rw [hnA]
          show y k + next.S3 k = 0
          rcases Nat.lt_or_ge (k : ℕ) i with h | h
          · rw [hy k hk1 h, hnz k hk1 h, add_zero]
          · have : k = fi := Fin.ext (by omega)
            rw [this]; exact hnfi
        obtain ⟨w, hgo, hwb, hwA, hwy⟩ := ih (i + 1) (by omega) (by omega)
          (fun k => y (next.A8 k) + next.S3 k) (next.mul res) hinv
        refine ⟨w.mul next, ?_, Built.mul hwb hnb, ?_, ?_⟩
        · rw [hgo, move.mul_assoc]
        · show w.A8.trans next.A8 = _
          rw [hwA, hnA]; rfl
        · intro k hk
          have := hwy k hk
          rw [hnA] at this
          show y k + (w.S3 k + next.S3 (w.A8 k)) = 0
          rw [hwA]
          show y k + (w.S3 k + next.S3 k) = 0
          calc y k + (w.S3 k + next.S3 k)
              = (y k + next.S3 k) + w.S3 k := by ring
            _ = 0 := this
      by_cases hy2 : y fi = 2
      · rw [if_pos hy2]
        obtain ⟨G, hG⟩ := send8slow_success fi hfipos
        simp only [hG]
        obtain ⟨hGb, hG0, hGfi⟩ := send8slow_props hG
        have hnA : (conjugate M1 G).A8 = Equiv.refl _ := conj_A8_of_id _ _ M1_A8
        have hnS : (conjugate M1 G).S3 = fun k => M1.S3 (G.A8 k) :=
          conj_S3_of_id _ _ M1_A8
        refine main (conjugate M1 G) (Built.conjugate builtM1 hGb) hnA ?_ ?_
        · intro k hk1 hk2
          rw [hnS]
          refine M1_S3_zero _ ?_ ?_
          · intro hc
            have : k = 0 := by
              have := G.A8.injective (hc.trans hG0.symm)
              exact this
            rw [this] at hk1; simp at hk1
          · intro hc
            have : k = fi := G.A8.injective (hc.trans hGfi.symm)
            rw [this] at hk2; omega
        · rw [hnS]
          show y fi + M1.S3 (G.A8 fi) = 0
          rw [hGfi, M1_S3_two, hy2]
          decide
      · rw [if_neg hy2]
        by_cases hy1 : y fi = 1
        · rw [if_pos hy1]
          obtain ⟨G, hG⟩ := send8slow_success fi hfipos
          simp only [hG]
          obtain ⟨hGb, hG0, hGfi⟩ := send8slow_props hG
          have hcA : (conjugate M1 G).A8 = Equiv.refl _ := conj_A8_of_id _ _ M1_A8
          have hcS : (conjugate M1 G).S3 = fun k => M1.S3 (G.A8 k) :=
            conj_S3_of_id _ _ M1_A8
          have hnA : ((conjugate M1 G).npow 2).A8 = Equiv.refl _ :=
            npow2_A8_of_id _ hcA
          have hnS : ((conjugate M1 G).npow 2).S3
              = fun k => M1.S3 (G.A8 k) + M1.S3 (G.A8 k) := by
            rw [npow2_S3_of_id _ hcA, hcS]
          refine main ((conjugate M1 G).npow 2)
            ((Built.conjugate builtM1 hGb).npow 2) hnA ?_ ?_
          · intro k hk1 hk2
            rw [hnS]
            have hz : M1.S3 (G.A8 k) = 0 := by
              refine M1_S3_zero _ ?_ ?_
              · intro hc
                have : k = 0 := G.A8.injective (hc.trans hG0.symm)
                rw [this] at hk1; simp at hk1
              · intro hc
                have : k = fi := G.A8.injective (hc.trans hGfi.symm)
                rw [this] at hk2; omega
            show M1.S3 (G.A8 k) + M1.S3 (G.A8 k) = 0
            rw [hz, add_zero]
          · rw [hnS]
            show y fi + (M1.S3 (G.A8 fi) + M1.S3 (G.A8 fi)) = 0
            rw [hGfi, M1_S3_two, hy1]
            decide
        · rw [if_neg hy1]
          have hy0 : y fi = 0 :=
            (by decide : ∀ v : ZMod 3, v ≠ 2 → v ≠ 1 → v = 0) (y fi) hy2 hy1
          refine ih (i + 1) (by omega) (by omega) y res ?_
          intro k hk1 hk2
          rcases Nat.lt_or_ge (k : ℕ) i with h | h
          · exact hy k hk1 h
          · have : k = fi := Fin.ext (by omega)
            rw [this]; exact hy0

/-- Phase 2 wrapper: the phase succeeds, returns a built, corner-position
trivial move, and zeroes the orientation of corners `1..7`. -/
theorem pivot_corner_cubies_spec (y : Fin 8 → ZMod 3) :
    ∃ w, pivot_corner_cubies y M1 2 fund_l = .ok w
      ∧ Built w ∧ w.A8 = Equiv.refl _ ∧
      (∀ k : Fin 8, 1 ≤ (k : ℕ) → y k + w.S3 k = 0) := by
  obtain ⟨w, hgo, hwb, hwA, hwy⟩ := pccGo_spec 7 1 rfl (by omega) y move.one
    (by intro k h1 h2; omega)
  refine ⟨w.mul move.one, hgo, Built.mul hwb Built.one, ?_, ?_⟩
  · show w.A8.trans move.one.A8 = _
    rw [hwA]; rfl
  · intro k hk
    have := hwy k hk
    show y k + (w.S3 k + move.one.S3 (w.A8 k)) = 0
    show y k + (w.S3 k + 0) = 0
    rw [add_zero]
    exact this

/-! ### Phase 4: the edge-orientation loop -/

theorem pedGo_spec : ∀ (fuel i : ℕ), i + fuel = 12 → 1 ≤ i →
    ∀ (y : Fin 12 → ZMod 2) (res : move),
    (∀ k : Fin 12, 1 ≤ (k : ℕ) → (k : ℕ) < i → y k = 0) →
    ∃ w, pivot_edge_cubiesGo M31 3 fund_l fuel i y res = .ok (w.mul res)
      ∧ Built w ∧ w.A8 = Equiv.refl _ ∧ w.S3 = (fun _ => 0)
      ∧ w.A12 = Equiv.refl _ ∧
      (∀ k : Fin 12, 1 ≤ (k : ℕ) → y k + w.S2 k = 0) := by
  intro fuel
  induction fuel with
  | zero =>
      intro i hi h1 y res hy
      refine ⟨move.one, ?_, Built.one, rfl, rfl, rfl, ?_⟩
      · rw [move.one_mul]; rfl
      · intro k hk
        have : y k = 0 := hy k hk (by omega)
        simp [move.one, this]
  | succ fuel ih =>
      intro i hi h1 y res hy
      have h12 : i < 12 := by omega
      rw [pivot_edge_cubiesGo]
      simp only [h12, dite_true]
      set fi : Fin 12 := ⟨i, h12⟩ with hfi
      have hval : (fi : ℕ) = i := rfl
      have hfipos : (0 : Fin 12) < fi := by
        rw [Fin.lt_def]; show 0 < i; omega
      by_cases hyn : y fi ≠ 0
      · rw [if_pos hyn]
        obtain ⟨G, hG⟩ := send12slow_success fi hfipos
        simp only [hG]
        obtain ⟨hGb, hG0, hGfi⟩ := send12slow_props hG
        have hnA8 : (conjugate M31 G).A8 = Equiv.refl _ := conj_A8_of_id _ _ M31_A8
        have hnS3 : (conjugate M31 G).S3 = (fun _ => 0) := by
          rw [conj_S3_of_id _ _ M31_A8, M31_S3]
        have hnA12 : (conjugate M31 G).A12 = Equiv.refl _ := conj_A12_of_id _ _ M31_A12
        have hnS2 : (conjugate M31 G).S2 = fun k => M31.S2 (G.A12 k) :=
          conj_S2_of_id _ _ M31_A12
        have hinv : ∀ k : Fin 12, 1 ≤ (k : ℕ) → (k : ℕ) < i + 1 →
            (fun k => y ((conjugate M31 G).A12 k) + (conjugate M31 G).S2 k) k = 0 := by
          intro k hk1 hk2
          show y ((conjugate M31 G).A12 k) + (conjugate M31 G).S2 k = 0
          rw [hnA12, hnS2]
          show y k + M31.S2 (G.A12 k) = 0
          rcases Nat.lt_or_ge (k : ℕ) i with h | h
          · have hz : M31.S2 (G.A12 k) = 0 := by
              refine M31_S2_zero _ ?_ ?_
              · intro hc
                have : k = 0 := G.A12.injective (hc.trans hG0.symm)
                rw [this] at hk1; simp at hk1
              · intro hc
                have : k = fi := G.A12.injective (hc.trans hGfi.symm)
                rw [this] at h; omega
            rw [hy k hk1 h, hz, add_zero]
          · have hk : k = fi := Fin.ext (by omega)
            rw [hk, hGfi, M31_S2_three]
            revert hyn
            exact (by decide : ∀ v : ZMod 2, v ≠ 0 → v + 1 = 0) (y fi)
        obtain ⟨w, hgo, hwb, hwA8, hwS3, hwA12, hwy⟩ := ih (i + 1) (by omega)
          (by omega) _ ((conjugate M31 G).mul res) hinv
        refine ⟨w.mul (conjugate M31 G), ?_,
          Built.mul hwb (Built.conjugate builtM31 hGb), ?_, ?_, ?_, ?_⟩
        · rw [hgo, move.mul_assoc]
        · show w.A8.trans (conjugate M31 G).A8 = _
          rw [hwA8, hnA8]; rfl
        · funext k
          show w.S3 k + (conjugate M31 G).S3 (w.A8 k) = 0
          rw [hwS3, hnS3]; simp
        · show w.A12.trans (conjugate M31 G).A12 = _
          rw [hwA12, hnA12]; rfl
        · intro k hk
          have hthis := hwy k hk
          rw [hnA12] at hthis
          show y k + (w.S2 k + (conjugate M31 G).S2 (w.A12 k)) = 0
          rw [hwA12]
          show y k + (w.S2 k + (conjugate M31 G).S2 k) = 0
          rw [hnS2] at hthis ⊢
          calc y k + (w.S2 k + M31.S2 (G.A12 k))
              = (y k + M31.S2 (G.A12 k)) + w.S2 k := by ring
            _ = 0 := hthis
      · rw [if_neg hyn]
        have hy0 : y fi = 0 := by
          by_contra hc; exact hyn hc
        refine ih (i + 1) (by omega) (by omega) y res ?_
        intro k hk1 hk2
        rcases Nat.lt_or_ge (k : ℕ) i with h | h
        · exact hy k hk1 h
        · have : k = fi := Fin.ext (by omega)
          rw [this]; exact hy0

/-- Phase 4 wrapper: the phase succeeds, returns a built move trivial on
corner positions, corner orientations and edge positions, and zeroes the
orientation of edges `1..11`. -/
theorem pivot_edge_cubies_spec (y : Fin 12 → ZMod 2) :
    ∃ w, pivot_edge_cubies y M31 3 fund_l = .ok w
      ∧ Built w ∧ w.A8 = Equiv.refl _ ∧ w.S3 = (fun _ => 0)
      ∧ w.A12 = Equiv.refl _ ∧
      (∀ k : Fin 12, 1 ≤ (k : ℕ) → y k + w.S2 k = 0) := by
  obtain ⟨w, hgo, hwb, hwA8, hwS3, hwA12, hwy⟩ := pedGo_spec 11 1 rfl (by omega)
    y move.one (by intro k h1 h2; omega)
  refine ⟨w.mul move.one, hgo, Built.mul hwb Built.one, ?_, ?_, ?_, ?_⟩
  · show w.A8.trans move.one.A8 = _
    rw [hwA8]; rfl
  · funext k
    show w.S3 k + move.one.S3 (w.A8 k) = 0
    rw [hwS3]; simp [move.one]
  · show w.A12.trans move.one.A12 = _
    rw [hwA12]; rfl
  · intro k hk
    have := hwy k hk
    show y k + (w.S2 k + move.one.S2 (w.A12 k)) = 0
    show y k + (w.S2 k + 0) = 0
    rw [add_zero]
    exact this

/-! ### Phase 3: the edge-position loop -/

/-- Step unfolding of the edge-position loop with an explicitly named bound
proof (the definition builds the `Fin 12` index with an inline proof; the
two sides agree by proof irrelevance). -/
theorem sepGo_step (fuel i : ℕ) (h : i < 10) (h12 : i < 12)
    (y : Equiv.Perm (Fin 12)) (res : move) (nm : Option move) :
    solve_edge_posGo switchers3 zones3 fund_l (fuel + 1) i y res nm =
      (if y ⟨i, h12⟩ = ⟨i, h12⟩ then
        solve_edge_posGo switchers3 zones3 fund_l fuel (i + 1) y res nm
      else
        match (List.finRange 12).find?
            (fun k => decide ((⟨i, h12⟩ : Fin 12) < k) && (y k == ⟨i, h12⟩)) with
        | none => .error "IndexError"
        | some j =>
          match firstSwitcher fund_l ⟨i, h12⟩ j (switchers3.zip zones3) with
          | some next =>
            solve_edge_posGo switchers3 zones3 fund_l fuel (i + 1)
              (next.A12.trans y) (next.mul res) (some next)
          | none =>
            match nm with
            | some next =>
              solve_edge_posGo switchers3 zones3 fund_l fuel (i + 1)
                (next.A12.trans y) (next.mul res) (some next)
            | none => .error "NameError") := by
  rw [solve_edge_posGo.eq_def]
  simp only [h, dite_true]

theorem sepGo_spec : ∀ (fuel i : ℕ), i + fuel = 10 →
    ∀ (y : Equiv.Perm (Fin 12)) (res : move) (nm : Option move),
    (∀ k : Fin 12, (k : ℕ) < i → y k = k) →
    ∃ w, solve_edge_posGo switchers3 zones3 fund_l fuel i y res nm = .ok (w.mul res)
      ∧ Built w ∧ w.A8 = Equiv.refl _ ∧ w.S3 = (fun _ => 0) ∧
      (∀ k : Fin 12, (k : ℕ) < 10 → (w.A12.trans y) k = k) := by
  intro fuel
  induction fuel with
  | zero =>
      intro i hi y res nm hy
      refine ⟨move.one, ?_, Built.one, rfl, rfl, ?_⟩
      · rw [move.one_mul]; rfl
      · intro k hk
        show y k = k
        exact hy k (by omega)
  | succ fuel ih =>
      intro i hi y res nm hy
      have h10 : i < 10 := by omega
      have h12 : i < 12 := by omega
      rw [sepGo_step fuel i h10 h12 y res nm]
      set fi : Fin 12 := ⟨i, h12⟩ with hfi
      have hval : (fi : ℕ) = i := rfl
      by_cases hyi : y fi = fi
      · rw [if_pos hyi]
        refine ih (i + 1) (by omega) y res nm ?_
        intro k hk
        rcases Nat.lt_or_ge (k : ℕ) i with h | h
        · exact hy k h
        · have : k = fi := Fin.ext (by omega)
          rw [this, hyi]
      · rw [if_neg hyi]
        have hj0 : ∃ k : Fin 12, (decide (fi < k) && (y k == fi)) = true := by
          refine ⟨y.symm fi, ?_⟩
          have hyj : y (y.symm fi) = fi := y.apply_symm_apply fi
          have hne : y.symm fi ≠ fi := by
            intro hc
            rw [hc] at hyj
            exact hyi hyj
          have hgt : fi < y.symm fi := by
            have hge : ¬ ((y.symm fi : ℕ) < i) := by
              intro hlt
              have h2 := hy (y.symm fi) hlt
              rw [hyj] at h2
              exact hne h2.symm
            have hvne : ((y.symm fi : Fin 12) : ℕ) ≠ i := by
              intro hc
              exact hne (Fin.ext (by simpa [hfi] using hc))
            rw [Fin.lt_def]
            show i < ((y.symm fi : Fin 12) : ℕ)
            omega
          simp [hgt, hyj]
        rcases hfind : (List.finRange 12).find?
            (fun k => decide (fi < k) && (y k == fi)) with _ | j
        · exfalso
          obtain ⟨k, hk⟩ := hj0
          exact absurd hk (by
            have := List.find?_eq_none.mp hfind k (List.mem_finRange k)
            simpa using this)
        · have hjp := List.find?_some hfind
          rw [Bool.and_eq_true, decide_eq_true_eq, beq_iff_eq] at hjp
          obtain ⟨hij, hyj⟩ := hjp
          obtain ⟨nx, hnx⟩ := firstSwitcher_success fi j (by omega) hij
          simp only [hnx]
          obtain ⟨p, hp, G, hG, rfl⟩ := firstSwitcher_inv hnx
          obtain ⟨hS8, hS3⟩ := switchers3_cornerTrivial p.1 (List.of_mem_zip hp).1
          obtain ⟨hzc, hzfix⟩ := switchers3_zone p hp
          obtain ⟨hGb, hGfi, hGj, k0, hk0gt, hk0⟩ := send12_props hG
          have hpb : Built p.1 := builtSwitchers3 p.1 (List.of_mem_zip hp).1
          have hnA8 : (conjugate p.1 G).A8 = Equiv.refl _ := conj_A8_of_id _ _ hS8
          have hnS3 : (conjugate p.1 G).S3 = (fun _ => 0) := by
            rw [conj_S3_of_id _ _ hS8, hS3]
          have hnfi : (conjugate p.1 G).A12 fi = j := by
            rw [conjugate_A12_apply, hGfi, hzc, ← hGj]
            exact G.A12.symm_apply_apply j
          have hnlow : ∀ k : Fin 12, (k : ℕ) < i → (conjugate p.1 G).A12 k = k := by
            intro k hk
            rw [conjugate_A12_apply]
            have h1 : G.A12 k ≠ p.2.1 := by
              rw [← hGfi]
              intro hc
              have : k = fi := G.A12.injective hc
              rw [this] at hk; omega
            have h2 : G.A12 k ≠ p.2.2.1 := by
              rw [← hGj]
              intro hc
              have : k = j := G.A12.injective hc
              rw [this] at hk
              have : (fi : ℕ) < (j : ℕ) := hij
              omega
            have h3 : G.A12 k ≠ p.2.2.2 := by
              rw [← hk0]
              intro hc
              have : k = k0 := G.A12.injective hc
              rw [this] at hk
              have : (fi : ℕ) < (k0 : ℕ) := hk0gt
              omega
            rw [hzfix _ h1 h2 h3]
            exact G.A12.symm_apply_apply k
          have hinv : ∀ k : Fin 12, (k : ℕ) < i + 1 →
              ((conjugate p.1 G).A12.trans y) k = k := by
            intro k hk
            show y ((conjugate p.1 G).A12 k) = k
            rcases Nat.lt_or_ge (k : ℕ) i with h | h
            · rw [hnlow k h]
              exact hy k h
            · have hkfi : k = fi := Fin.ext (by omega)
              rw [hkfi, hnfi]
              exact hyj
          obtain ⟨w, hgo, hwb, hwA8, hwS3, hwfix⟩ := ih (i + 1) (by omega)
            ((conjugate p.1 G).A12.trans y) ((conjugate p.1 G).mul res)
            (some (conjugate p.1 G)) hinv
          refine ⟨w.mul (conjugate p.1 G), ?_,
            Built.mul hwb (Built.conjugate hpb hGb), ?_, ?_, ?_⟩
          · rw [hgo, move.mul_assoc]
          · show w.A8.trans (conjugate p.1 G).A8 = _
            rw [hwA8, hnA8]; rfl
          · funext k
            show w.S3 k + (conjugate p.1 G).S3 (w.A8 k) = 0
            rw [hwS3, hnS3]; simp
          · intro k hk
            have := hwfix k hk
            show ((w.A12.trans (conjugate p.1 G).A12).trans y) k = k
            rw [Equiv.trans_assoc]
            exact this

/-- Phase 3 wrapper: on any edge position permutation the loop succeeds,
returns a built move trivial on the corners, and restores the edge
positions of slots `0..9`. -/
theorem solve_edge_pos_spec (y : Equiv.Perm (Fin 12)) :
    ∃ w, solve_edge_pos y switchers3 zones3 fund_l = .ok w
      ∧ Built w ∧ w.A8 = Equiv.refl _ ∧ w.S3 = (fun _ => 0) ∧
      (∀ k : Fin 12, (k : ℕ) < 10 → (w.A12.trans y) k = k) := by
  obtain ⟨w, hgo, hwb, hwA8, hwS3, hwfix⟩ := sepGo_spec 10 0 rfl y move.one none
    (by intro k hk; omega)
  refine ⟨w.mul move.one, hgo, Built.mul hwb Built.one, ?_, ?_, ?_⟩
  · show w.A8.trans move.one.A8 = _
    rw [hwA8]; rfl
  · funext k
    show w.S3 k + move.one.S3 (w.A8 k) = 0
    rw [hwS3]; simp [move.one]
  · intro k hk
    show y ((w.A12.trans move.one.A12) k) = k
    show y (w.A12 k) = k
    exact hwfix k hk

/-- A permutation of the 12 edge slots fixing slots `0..9` and of positive
sign is the identity. -/
theorem perm12_refl_of_fix10 (e : Equiv.Perm (Fin 12))
    (hfix : ∀ k : Fin 12, (k : ℕ) < 10 → e k = k)
    (hsign : Equiv.Perm.sign e = 1) : e = Equiv.refl _ := by
  have key : ∀ x : Fin 12, 10 ≤ (x : ℕ) → 10 ≤ ((e x) : ℕ) := by
    intro x hx
    by_contra hc
    push_neg at hc
    have h1 : e (e x) = e x := hfix (e x) hc
    have h2 : e x = x := e.injective h1
    rw [h2] at hc
    omega
  set a : Fin 12 := ⟨10, by omega⟩ with ha
  set bv : Fin 12 := ⟨11, by omega⟩ with hb
  have hav : (a : ℕ) = 10 := rfl
  have hbv : (bv : ℕ) = 11 := rfl
  have hane : a ≠ bv := by
    intro hc
    have h := congrArg Fin.val hc
    omega
  have hka : 10 ≤ ((e a) : ℕ) := key a (by omega)
  have hkb : 10 ≤ ((e bv) : ℕ) := key bv (by omega)
  have hla : ((e a) : ℕ) < 12 := (e a).isLt
  have hlb : ((e bv) : ℕ) < 12 := (e bv).isLt
  have hsplit : ∀ x : Fin 12, 10 ≤ (x : ℕ) → x = a ∨ x = bv := by
    intro x hx
    have := x.isLt
    rcases Nat.eq_or_lt_of_le hx with h1 | h1
    · left; apply Fin.ext; omega
    · right; apply Fin.ext; omega
  by_cases h10 : e a = a
  · have h11 : e bv = bv := by
      rcases hsplit (e bv) hkb with hc | hc
      · exfalso
        have := e.injective (hc.trans h10.symm)
        exact hane this.symm
      · exact hc
    apply Equiv.ext
    intro x
    rcases Nat.lt_or_ge (x : ℕ) 10 with h | h
    · exact hfix x h
    · rcases hsplit x h with hc | hc
      · rw [hc, h10]; rfl
      · rw [hc, h11]; rfl
  · exfalso
    have h10v : e a = bv := by
      rcases hsplit (e a) hka with hc | hc
      · exact absurd hc h10
      · exact hc
    have h11v : e bv = a := by
      rcases hsplit (e bv) hkb with hc | hc
      · exact hc
      · exfalso
        have := e.injective (hc.trans h10v.symm)
        exact hane this.symm
    have hswap : e = Equiv.swap a bv := by
      apply Equiv.ext
      intro x
      rcases Nat.lt_or_ge (x : ℕ) 10 with h | h
      · have hxa : x ≠ a := by
          intro hc
          have := congrArg Fin.val hc
          omega
        have hxb : x ≠ bv := by
          intro hc
          have := congrArg Fin.val hc
          omega
        rw [hfix x h, Equiv.swap_apply_of_ne_of_ne hxa hxb]
      · rcases hsplit x h with hc | hc
        · rw [hc, h10v, Equiv.swap_apply_left]
        · rw [hc, h11v, Equiv.swap_apply_right]
    rw [hswap, Equiv.Perm.sign_swap hane] at hsign
    exact (by decide : ¬ ((-1 : ℤˣ) = 1)) hsign

/-! ### End-to-end correctness of `solve` -/

theorem built_repl (l : List Tok) : Built (repl l) := by
  induction l with
  | nil => exact Built.one
  | cons a l ih => rw [repl_cons]; exact Built.mul ih (Built.fund a)

theorem applyMove_toState (m M : move) :
    applyMove m (moveToState M) = moveToState (m.mul M) := by
  show CubeState.mk _ _ _ _ = CubeState.mk _ _ _ _
  simp only [CubeState.mk.injEq]
  refine ⟨rfl, ?_, rfl, ?_⟩
  · funext k; exact add_comm _ _
  · funext k; exact add_comm _ _

/-- A built move with vanishing corner twists on slots `1..7` has vanishing
corner twists everywhere: the total twist of a built move is zero. -/
theorem S3_zero_of_rest {m : move} (hb : Built m)
    (h : ∀ k : Fin 8, 1 ≤ (k : ℕ) → m.S3 k = 0) : m.S3 = fun _ => 0 := by
  funext k
  rcases eq_or_ne k 0 with rfl | hk
  · have hsum := sumS3_built hb
    have hsingle : ∑ i, m.S3 i = m.S3 0 := by
      refine Fintype.sum_eq_single 0 ?_
      intro bq hbq
      refine h bq ?_
      have : (bq : ℕ) ≠ 0 := fun hc => hbq (Fin.ext hc)
      omega
    rw [hsingle] at hsum
    exact hsum
  · refine h k ?_
    have : (k : ℕ) ≠ 0 := fun hc => hk (Fin.ext hc)
    omega

theorem S2_zero_of_rest {m : move} (hb : Built m)
    (h : ∀ k : Fin 12, 1 ≤ (k : ℕ) → m.S2 k = 0) : m.S2 = fun _ => 0 := by
  funext k
  rcases eq_or_ne k 0 with rfl | hk
  · have hsum := sumS2_built hb
    have hsingle : ∑ i, m.S2 i = m.S2 0 := by
      refine Fintype.sum_eq_single 0 ?_
      intro bq hbq
      refine h bq ?_
      have : (bq : ℕ) ≠ 0 := fun hc => hbq (Fin.ext hc)
      omega
    rw [hsingle] at hsum
    exact hsum
  · refine h k ?_
    have : (k : ℕ) ≠ 0 := fun hc => hk (Fin.ext hc)
    omega

/-- The key correctness statement behind claim C1: on the state reached by
any token sequence, `solve` succeeds, its result is a built move whose
product with the scramble has identity fields, and the returned token list
is the result's decomposition. -/
theorem solve_spec (scr : List Tok) :
    ∃ res : move, solve (move_list_to_state scr) = .ok res.decompo
      ∧ Built res ∧ moveToState (res.mul (repl scr)) = solvedState := by
  set st0 := move_list_to_state scr with hst0
  set S := repl scr with hS
  have hbS : Built S := built_repl scr
  have hst0' : st0 = moveToState S := rfl
  -- phase 1
  obtain ⟨res1, hok1, hb1, hid1⟩ := solve_corner_pos_spec st0.cp
  set A1 := res1.mul S with hA1
  have hbA1 : Built A1 := Built.mul hb1 hbS
  have hst1 : applyMove res1 st0 = moveToState A1 := applyMove_toState res1 S
  have hA1A8 : A1.A8 = Equiv.refl _ := hid1
  -- phase 2
  obtain ⟨res2, hok2, hb2, hA8res2, hco2⟩ :=
    pivot_corner_cubies_spec (applyMove res1 st0).co
  set A2 := res2.mul A1 with hA2
  have hbA2 : Built A2 := Built.mul hb2 hbA1
  have hst2 : applyMove res2 (applyMove res1 st0) = moveToState A2 := by
    rw [hst1]; exact applyMove_toState res2 A1
  have hA2A8 : A2.A8 = Equiv.refl _ := by
    show res2.A8.trans A1.A8 = _
    rw [hA8res2, hA1A8]; rfl
  have hA2S3 : A2.S3 = fun _ => 0 := by
    refine S3_zero_of_rest hbA2 ?_
    intro k hk
    have := hco2 k hk
    rw [hst1] at this
    show res2.S3 k + A1.S3 (res2.A8 k) = 0
    rw [hA8res2]
    show res2.S3 k + A1.S3 k = 0
    calc res2.S3 k + A1.S3 k = A1.S3 k + res2.S3 k := add_comm _ _
      _ = 0 := this
  -- phase 3
  obtain ⟨res3, hok3, hb3, hA8res3, hS3res3, hfix3⟩ :=
    solve_edge_pos_spec (applyMove res2 (applyMove res1 st0)).ep
  set A3 := res3.mul A2 with hA3
  have hbA3 : Built A3 := Built.mul hb3 hbA2
  have hst3 : applyMove res3 (applyMove res2 (applyMove res1 st0))
      = moveToState A3 := by
    rw [hst2]; exact applyMove_toState res3 A2
  have hA3A8 : A3.A8 = Equiv.refl _ := by
    show res3.A8.trans A2.A8 = _
    rw [hA8res3, hA2A8]; rfl
  have hA3S3 : A3.S3 = fun _ => 0 := by
    funext k
    show res3.S3 k + A2.S3 (res3.A8 k) = 0
    rw [hS3res3, hA2S3]
    simp
  have hA3A12fix : ∀ k : Fin 12, (k : ℕ) < 10 → A3.A12 k = k := by
    intro k hk
    have := hfix3 k hk
    rw [hst2] at this
    exact this
  have hA3A12 : A3.A12 = Equiv.refl _ := by
    refine perm12_refl_of_fix10 _ hA3A12fix ?_
    have := sign_built hbA3
    rw [hA3A8] at this
    rw [← this]
    simp
  -- phase 4
  obtain ⟨res4, hok4, hb4, hA8res4, hS3res4, hA12res4, heo4⟩ :=
    pivot_edge_cubies_spec
      (applyMove res3 (applyMove res2 (applyMove res1 st0))).eo
  set A4 := res4.mul A3 with hA4
  have hbA4 : Built A4 := Built.mul hb4 hbA3
  have hA4A8 : A4.A8 = Equiv.refl _ := by
    show res4.A8.trans A3.A8 = _
    rw [hA8res4, hA3A8]; rfl
  have hA4S3 : A4.S3 = fun _ => 0 := by
    funext k
    show res4.S3 k + A3.S3 (res4.A8 k) = 0
    rw [hS3res4, hA3S3]
    simp
  have hA4A12 : A4.A12 = Equiv.refl _ := by
    show res4.A12.trans A3.A12 = _
    rw [hA12res4, hA3A12]; rfl
  have hA4S2 : A4.S2 = fun _ => 0 := by
    refine S2_zero_of_rest hbA4 ?_
    intro k hk
    have := heo4 k hk
    rw [hst3] at this
    show res4.S2 k + A3.S2 (res4.A12 k) = 0
    rw [hA12res4]
    show res4.S2 k + A3.S2 k = 0
    calc res4.S2 k + A3.S2 k = A3.S2 k + res4.S2 k := add_comm _ _
      _ = 0 := this
  -- assemble
  have e1 : solve st0 = (do
      let res2 ← pivot_corner_cubies (applyMove res1 st0).co M1 2 fund_l
      let res3 ← solve_edge_pos (applyMove res2 (applyMove res1 st0)).ep
        switchers3 zones3 fund_l
      let res4 ← pivot_edge_cubies
        (applyMove res3 (applyMove res2 (applyMove res1 st0))).eo M31 3 fund_l
      Except.ok (((res4.mul res3).mul res2).mul res1).decompo) := by
    simp only [solve]
    rw [hok1]
    rfl
  have e2 : solve st0 = (do
      let res3 ← solve_edge_pos (applyMove res2 (applyMove res1 st0)).ep
        switchers3 zones3 fund_l
      let res4 ← pivot_edge_cubies
        (applyMove res3 (applyMove res2 (applyMove res1 st0))).eo M31 3 fund_l
      Except.ok (((res4.mul res3).mul res2).mul res1).decompo) := by
    rw [e1, hok2]
    rfl
  have e3 : solve st0 = (do
      let res4 ← pivot_edge_cubies
        (applyMove res3 (applyMove res2 (applyMove res1 st0))).eo M31 3 fund_l
      Except.ok (((res4.mul res3).mul res2).mul res1).decompo) := by
    rw [e2, hok3]
    rfl
  have e4 : solve st0
      = Except.ok ((((res4.mul res3).mul res2).mul res1).decompo) := by
    rw [e3, hok4]
    rfl
  refine ⟨((res4.mul res3).mul res2).mul res1, ?_, ?_, ?_⟩
  · exact e4
  · exact Built.mul (Built.mul (Built.mul hb4 hb3) hb2) hb1
  · have hassoc : (((res4.mul res3).mul res2).mul res1).mul S = A4 := by
      rw [hA4, hA3, hA2, hA1]
      rw [move.mul_assoc, move.mul_assoc, move.mul_assoc]
    rw [hassoc]
    show CubeState.mk _ _ _ _ = CubeState.mk _ _ _ _
    simp only [CubeState.mk.injEq]
    exact ⟨hA4A8, hA4S3, hA4A12, hA4S2⟩

/-! ### Additional helpers for the claim theorems -/

theorem searchMoves_good {good : move → Bool} {auth : List move}
    {maxMove : ℕ} {m : move}
    (h : searchMoves good auth maxMove 1 [move.one] = some m) : good m = true :=
  (searchMoves_sound good auth maxMove (fun _ => True) (fun _ _ _ _ => trivial)
    1 [move.one] (fun _ _ => trivial) m h).1

/-- The spec's description of `inverse(a)`: inverse permutations, twists
negated and relocated through the inverse permutation, token list reversed
with each token's direction flipped.  Stated from the specification text to
be compared with the code's `__pow__(-1)` branch. -/
def specInverse (a : move) : move :=
  ⟨a.A8.symm, fun j => -a.S3 (a.A8.symm j),
   a.A12.symm, fun j => -a.S2 (a.A12.symm j),
   (a.decompo.reverse).map Tok.swapCase⟩

/-- The spec's "`a` composed with itself n times via repeated `compose`"
(for n ≥ 1). -/
def composeN (a : move) : ℕ → move
  | 0 => move.one
  | 1 => a
  | n + 2 => a.mul (composeN a (n + 1))

theorem mul_npow_comm (a : move) : ∀ k, a.mul (a.npow k) = (a.npow k).mul a
  | 0 => by rw [show a.npow 0 = move.one from rfl, move.mul_one, move.one_mul]
  | k + 1 => by
      show a.mul ((a.npow k).mul a) = (a.npow (k + 1)).mul a
      rw [← move.mul_assoc, mul_npow_comm a k]
      rfl

theorem npow_eq_composeN (a : move) : ∀ n, 1 ≤ n → a.npow n = composeN a n := by
  intro n
  induction n with
  | zero => intro h; omega
  | succ n ih =>
      intro _
      match n, ih with
      | 0, _ => show move.one.mul a = a; exact move.one_mul a
      | n + 1, ih =>
          show (a.npow (n + 1)).mul a = a.mul (composeN a (n + 1))
          rw [← ih (by omega), ← mul_npow_comm]

/-- The `next_move` staleness scenario of claim C3: an edge-position state
with two defects, a single custom switcher handling only the first one. -/
def cyc3 : Equiv.Perm (Fin 12) := (Equiv.swap 1 2).trans (Equiv.swap 0 1)

def staleSwitcher : move := ⟨Equiv.refl _, fun _ => 0, cyc3, fun _ => 0, []⟩

/-- Exact face-inverse of two tokens: same face, opposite direction (the
relation claim C5 says is the only pruning criterion). -/
def isFaceInverse (aT bT : Tok) : Prop := bT.face = aT.face ∧ bT.up = !aT.up

instance (aT bT : Tok) : Decidable (isFaceInverse aT bT) := by
  unfold isFaceInverse; infer_instance

/-! ### The claim theorems -/

/-- C1: for every scramble token sequence over the 12 fundamental
quarter-turn symbols, replaying the scramble followed by the token list
returned by `solve` on the scramble's resulting state yields the solved
configuration (identity corner and edge position permutations, all corner
and edge orientation values zero). -/
theorem C1_solver_correct (scr : List Tok) :
    ∃ sol, solve (move_list_to_state scr) = .ok sol ∧
      move_list_to_state (scr ++ sol) = solvedState := by
  obtain ⟨res, hok, hbres, hstate⟩ := solve_spec scr
  refine ⟨res.decompo, hok, ?_⟩
  rw [move_list_to_state_eq, repl_append, repl_roundtrip hbres]
  exact hstate

/-- C2: for every move built from the 12 fundamental generators by
composition, inverse and integer powers, replaying its token list through
composition of fundamental generators from the identity reproduces all four
algebraic fields exactly (here: the whole structure, tokens included). -/
theorem C2_roundtrip :
    (∀ m : move, Built m → repl m.decompo = m) ∧
    (∀ (m : move) (n : ℤ) (bm : move), Built m → m.pow n = .ok bm →
      repl bm.decompo = bm) := by
  constructor
  · intro m h; exact repl_roundtrip h
  · intro m n bm hm hp
    exact repl_roundtrip (Built.pow hm n hp)

/-- Witness for C2 at the concrete move `F*R` and the power `F**2`. -/
theorem C2_witness :
    repl (F.mul R).decompo = F.mul R ∧ repl (F.npow 2).decompo = F.npow 2 :=
  ⟨C2_roundtrip.1 (F.mul R) (builtF.mul builtR),
   C2_roundtrip.2 F 2 (F.npow 2) builtF rfl⟩

/-- C3: evaluation of `solve_edge_pos` at the staleness input.  The state
`cyc3` has defects at slots 0 and 1; the single switcher connects only the
first one.  For the second defect every switcher fails, yet the code
returns a result (built by silently reusing the previous defect's
`next_move` twice — its edge action is `cyc3` applied twice) instead of
signalling the fatal error the claim requires. -/
theorem C3_stale_eval :
    ∃ res, solve_edge_pos cyc3 [staleSwitcher] [(0, 2, 5)] [F] = .ok res
      ∧ res.decompo = [] ∧ (∀ x, res.A12 x = cyc3 (cyc3 x)) := by
  refine ⟨_, rfl, rfl, ?_⟩
  decide

/-- C4 counterexample: the claim (as stated) asserts a third target slot
`cl3` determined by the query into which the third cubie is placed exactly.
For the query `(cb1,cb2,cb3,cl1,cl2) = (9,6,1,4,9)` two authorized sets
both succeed but place cubie 1 at slot 6 resp. slot 11, so no such `cl3`
exists: the code only tests membership of `cb3` among the slots after
`cl1`. -/
theorem C4_counterexample :
    ¬ ∃ cl3 : Fin 12, ∀ (auth : List move) (m : move),
        send_12 9 6 1 4 9 auth = some m →
        m.A12 4 = 9 ∧ m.A12 9 = 6 ∧ m.A12 cl3 = 1 := by
  rintro ⟨cl3, h⟩
  have h1 := (h [F] (F.mul move.one) rfl).2.2
  have h2 := (h [u.mul F] ((u.mul F).mul move.one) rfl).2.2
  have e1 : cl3 = 6 :=
    (by decide : ∀ x : Fin 12, (F.mul move.one).A12 x = 1 → x = 6) cl3 h1
  have e2 : cl3 = 11 :=
    (by decide : ∀ x : Fin 12, ((u.mul F).mul move.one).A12 x = 1 → x = 11) cl3 h2
  rw [e1] at e2
  cases e2

/-- C4 amended: whenever `send_12` returns a move, the move places `cb1`
into `cl1` and `cb2` into `cl2` exactly, and guarantees for the third label
only that it occupies some slot strictly after `cl1` — not a fixed third
target slot. -/
theorem C4_send12_partial (cb1 cb2 cb3 cl1 cl2 : Fin 12) (auth : List move)
    (m : move) (h : send_12 cb1 cb2 cb3 cl1 cl2 auth = some m) :
    m.A12 cl1 = cb1 ∧ m.A12 cl2 = cb2 ∧
      ∃ k : Fin 12, cl1 < k ∧ m.A12 k = cb3 := by
  have hgood := searchMoves_good h
  simp only [good12, Bool.and_eq_true, beq_iff_eq, List.any_eq_true,
    decide_eq_true_eq] at hgood
  obtain ⟨⟨h1, h2⟩, k, _, hk1, hk2⟩ := hgood
  exact ⟨h1, h2, k, hk1, hk2⟩

/-- Witness for C4's amended statement at the query `(9,6,1,4,9)` over the
authorized set `[F]`. -/
theorem C4_witness :
    (F.mul move.one).A12 4 = 9 ∧ (F.mul move.one).A12 9 = 6 ∧
      ∃ k : Fin 12, (4 : Fin 12) < k ∧ (F.mul move.one).A12 k = 1 :=
  C4_send12_partial 9 6 1 4 9 [F] (F.mul move.one) rfl

/-- C5 counterexample: the claim says an authorized move is composed onto a
surviving candidate exactly when its first token is not the exact
face-inverse of the candidate's last token.  At `m = g = F` the boundary
tokens are not face-inverses (same direction), yet the expansion prunes the
composition, so the claimed equivalence is false. -/
theorem C5_counterexample :
    ¬ ∀ (m g : move) (a bt : Tok), m.decompo.head? = some a →
        g.decompo.getLast? = some bt →
        ((m.mul g) ∈ expand 2 [m] [g] ↔ ¬ isFaceInverse a bt) := by
  intro h
  have hmem := (h F F ⟨Face.F, true⟩ ⟨Face.F, true⟩ rfl rfl).mpr (by decide)
  rw [show expand 2 [F] [F] = [] from rfl] at hmem
  exact List.not_mem_nil _ hmem

/-- C5 amended: at depths after the first, the extension of a candidate by
an authorized move is pruned exactly when the move's first token and the
candidate's last token have the same face — whether the directions are
opposite (the face-inverse cancellation) or equal (a same-token repeat). -/
theorem C5_prune_same_face (m g : move) (a bt : Tok)
    (ha : m.decompo.head? = some a) (hb : g.decompo.getLast? = some bt) :
    (pruneHead m g = true ↔ bt.face = a.face) ∧
    (∀ n : ℕ, (m.mul g) ∈ expand (n + 2) [m] [g] ↔ pruneHead m g = false) := by
  constructor
  · unfold pruneHead
    rw [ha, hb]
    obtain ⟨af, au⟩ := a
    obtain ⟨bf, bu⟩ := bt
    cases au <;> cases bu <;> cases af <;> cases bf <;> decide
  · intro n
    by_cases hpr : pruneHead m g <;> simp [expand, hpr]

/-- Witness for C5's amended statement at `m = g = F`. -/
theorem C5_witness :
    (pruneHead F F = true ↔ (Tok.mk Face.F true).face = (Tok.mk Face.F true).face) ∧
    (∀ n : ℕ, (F.mul F) ∈ expand (n + 2) [F] [F] ↔ pruneHead F F = false) :=
  C5_prune_same_face F F ⟨Face.F, true⟩ ⟨Face.F, true⟩ rfl rfl

/-- C6: the connector searches terminate for every query: the result is
either the `None` sentinel or a success passing the test; `None` is
returned only when no candidate expressible in at most `maxMove` authorized
moves (the identity included) achieves the target; and the default depth
bounds are 5 for the corner search and 3 for the edge search. -/
theorem C6_termination (auth : List move) (maxMove : ℕ) :
    (∀ cb1 cb2 cl1 cl2 : Fin 8,
      (send_8 cb1 cb2 cl1 cl2 auth maxMove = none
        ∨ ∃ m, send_8 cb1 cb2 cl1 cl2 auth maxMove = some m
            ∧ good8 cb1 cb2 cl1 cl2 m = true)
      ∧ (send_8 cb1 cb2 cl1 cl2 auth maxMove = none →
          (1 ≤ maxMove → good8 cb1 cb2 cl1 cl2 (move.one.mul move.one) ≠ true) ∧
          ¬ ∃ (a : move) (rest : List move),
            (∀ x ∈ a :: rest, x ∈ auth) ∧ (∀ x ∈ a :: rest, x.decompo ≠ []) ∧
            extOK (a.mul move.one) rest = true ∧ (a :: rest).length ≤ maxMove ∧
            good8 cb1 cb2 cl1 cl2 (candFrom (a.mul move.one) rest) = true)
      ∧ send_8 cb1 cb2 cl1 cl2 auth
          = searchMoves (good8 cb1 cb2 cl1 cl2) auth 5 1 [move.one])
    ∧ (∀ cb1 cb2 cb3 cl1 cl2 : Fin 12,
      (send_12 cb1 cb2 cb3 cl1 cl2 auth maxMove = none
        ∨ ∃ m, send_12 cb1 cb2 cb3 cl1 cl2 auth maxMove = some m
            ∧ good12 cb1 cb2 cb3 cl1 cl2 m = true)
      ∧ (send_12 cb1 cb2 cb3 cl1 cl2 auth maxMove = none →
          (1 ≤ maxMove → good12 cb1 cb2 cb3 cl1 cl2 (move.one.mul move.one) ≠ true) ∧
          ¬ ∃ (a : move) (rest : List move),
            (∀ x ∈ a :: rest, x ∈ auth) ∧ (∀ x ∈ a :: rest, x.decompo ≠ []) ∧
            extOK (a.mul move.one) rest = true ∧ (a :: rest).length ≤ maxMove ∧
            good12 cb1 cb2 cb3 cl1 cl2 (candFrom (a.mul move.one) rest) = true)
      ∧ send_12 cb1 cb2 cb3 cl1 cl2 auth
          = searchMoves (good12 cb1 cb2 cb3 cl1 cl2) auth 3 1 [move.one]) := by
  have gen : ∀ good : move → Bool,
      (searchMoves good auth maxMove 1 [move.one] = none
        ∨ ∃ m, searchMoves good auth maxMove 1 [move.one] = some m
            ∧ good m = true)
      ∧ (searchMoves good auth maxMove 1 [move.one] = none →
          (1 ≤ maxMove → good (move.one.mul move.one) ≠ true) ∧
          ¬ ∃ (a : move) (rest : List move),
            (∀ x ∈ a :: rest, x ∈ auth) ∧ (∀ x ∈ a :: rest, x.decompo ≠ []) ∧
            extOK (a.mul move.one) rest = true ∧ (a :: rest).length ≤ maxMove ∧
            good (candFrom (a.mul move.one) rest) = true) := by
    intro good
    constructor
    · rcases hres : searchMoves good auth maxMove 1 [move.one] with _ | m
      · exact Or.inl rfl
      · exact Or.inr ⟨m, rfl, searchMoves_good hres⟩
    · intro hnone
      constructor
      · intro hmax hgood
        rw [searchMoves_identity good auth maxMove hmax hgood] at hnone
        cases hnone
      · rintro ⟨a, rest, hmem, hdec, hext, hlen, hgood⟩
        obtain ⟨m, hm⟩ := searchMoves_complete good auth maxMove a rest
          hmem hdec hext hlen hgood
        rw [hm] at hnone
        cases hnone
  exact ⟨fun cb1 cb2 cl1 cl2 => ⟨(gen (good8 cb1 cb2 cl1 cl2)).1,
      (gen (good8 cb1 cb2 cl1 cl2)).2, rfl⟩,
    fun cb1 cb2 cb3 cl1 cl2 => ⟨(gen (good12 cb1 cb2 cb3 cl1 cl2)).1,
      (gen (good12 cb1 cb2 cb3 cl1 cl2)).2, rfl⟩⟩

/-- Witness for C6: over an empty authorized set the corner search for an
unreachable target returns `None`, hence no qualifying chain exists. -/
theorem C6_witness :
    ¬ ∃ (a : move) (rest : List move),
      (∀ x ∈ a :: rest, x ∈ ([] : List move)) ∧
      (∀ x ∈ a :: rest, x.decompo ≠ []) ∧
      extOK (a.mul move.one) rest = true ∧ (a :: rest).length ≤ 5 ∧
      good8 0 1 2 3 (candFrom (a.mul move.one) rest) = true :=
  (((C6_termination [] 5).1 0 1 2 3).2.1 rfl).2

/-- C7: the four cases of the power operation: exponent 0 gives the
identity move with empty token list, exponent −1 gives the specification's
inverse, exponent n ≥ 1 gives the n-fold repeated composition, and any
exponent below −1 is rejected with the invalid-argument error before any
composition is attempted. -/
theorem C7_power :
    (∀ m : move, m.pow 0 = .ok move.one)
    ∧ (∀ m : move, m.pow (-1) = .ok (specInverse m))
    ∧ (∀ (m : move) (n : ℕ), 1 ≤ n → m.pow (n : ℤ) = .ok (composeN m n))
    ∧ (∀ (m : move) (z : ℤ), z < -1 →
        m.pow z = .error "expo has to be an integer greater or equal to -1") := by
  refine ⟨fun m => rfl, fun m => rfl, ?_, ?_⟩
  · intro m n hn
    unfold move.pow
    rw [if_pos (by omega), if_neg (by omega), if_neg (by omega),
      Int.toNat_natCast]
    rw [npow_eq_composeN m n hn]
  · intro m z hz
    unfold move.pow
    rw [if_neg (by omega)]

/-- Witness for C7 at `F` with exponents 0, −1, 2 and −2. -/
theorem C7_witness :
    F.pow 0 = .ok move.one ∧ F.pow (-1) = .ok (specInverse F)
    ∧ F.pow ((2 : ℕ) : ℤ) = .ok (composeN F 2)
    ∧ F.pow (-2) = .error "expo has to be an integer greater or equal to -1" :=
  ⟨C7_power.1 F, C7_power.2.1 F, C7_power.2.2.1 F 2 (by omega),
   C7_power.2.2.2 F (-2) (by omega)⟩

/-- C8: for every move `m`, the product `m * m**(-1)` acts as the identity:
identity corner and edge position permutations and zero twist actions. -/
theorem C8_inverse_law (m : move) :
    ∃ mi, m.pow (-1) = .ok mi ∧
      (m.mul mi).A8 = Equiv.refl _ ∧ (m.mul mi).S3 = (fun _ => 0) ∧
      (m.mul mi).A12 = Equiv.refl _ ∧ (m.mul mi).S2 = (fun _ => 0) :=
  ⟨m.inv, rfl, move.mul_inv_fields m⟩

/-- C9: `solve` applied to the solved state (produced by replaying the
empty token list) returns the empty token list. -/
theorem C9_solved_input : solve (move_list_to_state []) = .ok [] := rfl

/-- C10: when the success test already holds for the identity candidate
(the target slots already hold the required cubies), each of the four
searches returns the identity move with empty token list, found as the
first depth-1 candidate; conjugation by it then degenerates to the switcher
itself. -/
theorem C10_identity_first :
    (∀ (cb1 cb2 cl1 cl2 : Fin 8) (auth : List move) (maxMove : ℕ),
      1 ≤ maxMove → good8 cb1 cb2 cl1 cl2 (move.one.mul move.one) = true →
      ∃ m, send_8 cb1 cb2 cl1 cl2 auth maxMove = some m ∧ m.decompo = [] ∧
        m.A8 = Equiv.refl _ ∧ m.S3 = (fun _ => 0) ∧
        m.A12 = Equiv.refl _ ∧ m.S2 = (fun _ => 0))
    ∧ (∀ (cb1 cb2 cl1 cl2 : Fin 8) (auth : List move) (maxMove : ℕ),
      1 ≤ maxMove → good8slow cb1 cb2 cl1 cl2 (move.one.mul move.one) = true →
      ∃ m, send_8_slow cb1 cb2 cl1 cl2 auth maxMove = some m ∧ m.decompo = [])
    ∧ (∀ (cb1 cb2 cb3 cl1 cl2 : Fin 12) (auth : List move) (maxMove : ℕ),
      1 ≤ maxMove → good12 cb1 cb2 cb3 cl1 cl2 (move.one.mul move.one) = true →
      ∃ m, send_12 cb1 cb2 cb3 cl1 cl2 auth maxMove = some m ∧ m.decompo = [])
    ∧ (∀ (cb1 cb2 cl1 cl2 : Fin 12) (auth : List move) (maxMove : ℕ),
      1 ≤ maxMove → good12slow cb1 cb2 cl1 cl2 (move.one.mul move.one) = true →
      ∃ m, send_12_slow cb1 cb2 cl1 cl2 auth maxMove = some m ∧ m.decompo = [])
    ∧ (∀ S : move, conjugate S (move.one.mul move.one) = S) := by
  have hfields : (move.one.mul move.one).A8 = Equiv.refl (Fin 8) ∧
      (move.one.mul move.one).S3 = (fun _ => 0) ∧
      (move.one.mul move.one).A12 = Equiv.refl (Fin 12) ∧
      (move.one.mul move.one).S2 = (fun _ => 0) := by
    refine ⟨rfl, ?_, rfl, ?_⟩ <;> funext k <;> simp [move.mul, move.one]
  refine ⟨?_, ?_, ?_, ?_, ?_⟩
  · intro cb1 cb2 cl1 cl2 auth maxMove hmax hgood
    exact ⟨move.one.mul move.one, searchMoves_identity _ auth maxMove hmax hgood,
      rfl, hfields.1, hfields.2.1, hfields.2.2.1, hfields.2.2.2⟩
  · intro cb1 cb2 cl1 cl2 auth maxMove hmax hgood
    exact ⟨move.one.mul move.one, searchMoves_identity _ auth maxMove hmax hgood, rfl⟩
  · intro cb1 cb2 cb3 cl1 cl2 auth maxMove hmax hgood
    exact ⟨move.one.mul move.one, searchMoves_identity _ auth maxMove hmax hgood, rfl⟩
  · intro cb1 cb2 cl1 cl2 auth maxMove hmax hgood
    exact ⟨move.one.mul move.one, searchMoves_identity _ auth maxMove hmax hgood, rfl⟩
  · intro S
    refine move.ext' ?_ ?_ ?_ ?_ ?_
    · apply Equiv.ext; intro x
      simp [conjugate, move.mul, move.inv, move.one]
    · funext k
      simp [conjugate, move.mul, move.inv, move.one]
    · apply Equiv.ext; intro x
      simp [conjugate, move.mul, move.inv, move.one]
    · funext k
      simp [conjugate, move.mul, move.inv, move.one]
    · simp [conjugate, move.mul, move.inv, move.one]

/-- Witness for C10: a query whose targets are already correct, for each of
the four searches, and the degenerate conjugation at `F`. -/
theorem C10_witness :
    (∃ m, send_8 0 1 0 1 fund_l 5 = some m ∧ m.decompo = [] ∧
      m.A8 = Equiv.refl _ ∧ m.S3 = (fun _ => 0) ∧
      m.A12 = Equiv.refl _ ∧ m.S2 = (fun _ => 0))
    ∧ (∃ m, send_8_slow 0 1 0 1 fund_l 5 = some m ∧ m.decompo = [])
    ∧ (∃ m, send_12 0 1 2 0 1 fund_l 3 = some m ∧ m.decompo = [])
    ∧ (∃ m, send_12_slow 0 1 0 1 fund_l 3 = some m ∧ m.decompo = [])
    ∧ conjugate F (move.one.mul move.one) = F :=
  ⟨C10_identity_first.1 0 1 0 1 fund_l 5 (by omega) (by decide),
   C10_identity_first.2.1 0 1 0 1 fund_l 5 (by omega) (by decide),
   C10_identity_first.2.2.1 0 1 2 0 1 fund_l 3 (by omega) (by decide),
   C10_identity_first.2.2.2.1 0 1 0 1 fund_l 3 (by omega) (by decide),
   C10_identity_first.2.2.2.2 F⟩

end Rubik